/-
Verification of the ocarina auto-player core (ocarina_player.py and
musicxml_to_song.py): the duration codec, the song-text parser, the
playback scheduler and the pitch/range helpers, shallowly embedded in
Lean 4.  Python exact `Fraction` values and floats are modelled as `ℚ`
(exact rational arithmetic), strings as `List Char`, and fallible calls
as `Except`/`Option`.
-/
import Mathlib

namespace Ocarina

/-! ### Character and string helpers (models of the Python str operations used) -/

/-- Model of `str.strip()` restricted to the leading side:
drop leading whitespace. -/
def ltrim (l : List Char) : List Char := l.dropWhile (fun c => c.isWhitespace)

/-- Model of `str.strip()`: drop leading and trailing whitespace. -/
def trim (l : List Char) : List Char := ((ltrim l).reverse.dropWhile (fun c => c.isWhitespace)).reverse

/-- Model of `str.split(sep)` for a single-character separator:
split at every character satisfying `p`, keeping empty chunks. -/
def splitOnP (p : Char → Bool) : List Char → List (List Char)
  | [] => [[]]
  | c :: cs =>
    if p c then [] :: splitOnP p cs
    else
      match splitOnP p cs with
      | [] => [[c]]
      | g :: gs => (c :: g) :: gs

/-- Model of `str.split(sep)` for a one-character separator. -/
def splitOnChar (sep : Char) (l : List Char) : List (List Char) :=
  splitOnP (fun c => c == sep) l

/-- Model of `str.split()` (no argument): split on whitespace runs,
dropping empty chunks. -/
def splitWs (l : List Char) : List (List Char) :=
  (splitOnP (fun c => c.isWhitespace) l).filter (fun g => g ≠ [])

/-- Model of `"+".join(parts)`. -/
def joinPlus : List (List Char) → List Char
  | [] => []
  | [c] => c
  | c :: rest => c ++ '+' :: joinPlus rest

/-- Decimal digit characters of `n` with most significant first, by repeated
division by 10; `fuel ≥ n` suffices.  Auxiliary for `natToChars`. -/
def natToCharsAux : ℕ → ℕ → List Char
  | _, 0 => []
  | 0, _ => []
  | fuel + 1, n => natToCharsAux fuel (n / 10) ++ [Nat.digitChar (n % 10)]

/-- Model of Python `str(n)` for a nonnegative integer: decimal digits,
`"0"` for zero. -/
def natToChars (n : ℕ) : List Char :=
  if n = 0 then ['0'] else natToCharsAux n n

/-- Model of Python `str(i)` for an integer (a leading `-` for negatives). -/
def intToChars (i : ℤ) : List Char :=
  if i < 0 then '-' :: natToChars i.natAbs else natToChars i.toNat

/-- Value of a decimal digit character, if it is one. -/
def charDigit (c : Char) : Option ℕ :=
  if c = '0' then some 0 else if c = '1' then some 1 else if c = '2' then some 2
  else if c = '3' then some 3 else if c = '4' then some 4 else if c = '5' then some 5
  else if c = '6' then some 6 else if c = '7' then some 7 else if c = '8' then some 8
  else if c = '9' then some 9 else none

/-- Accumulating decimal parser over a digit string. -/
def parseNatAux : ℕ → List Char → Option ℕ
  | acc, [] => some acc
  | acc, c :: cs =>
    match charDigit c with
    | some d => parseNatAux (10 * acc + d) cs
    | none => none

/-- Model of Python `int(s)` on an unsigned decimal string:
`none` when `s` is empty or holds a non-digit (Python raises ValueError). -/
def parseNat (s : List Char) : Option ℕ :=
  if s = [] then none else parseNatAux 0 s

/-- Model of Python `int(s)` on an optionally signed decimal string. -/
def parseInt (s : List Char) : Option ℤ :=
  if s.head? = some '-' then (parseNat (s.drop 1)).map (fun n => -(n : ℤ))
  else if s.head? = some '+' then (parseNat (s.drop 1)).map (fun n => (n : ℤ))
  else (parseNat s).map (fun n => (n : ℤ))

/-- Unsigned part of `parseFloat`: digits with an optional decimal point. -/
def parseFloatAbs (t : List Char) : Option ℚ :=
  match splitOnChar '.' t with
  | [w] => (parseNat w).map (fun n => (n : ℚ))
  | [w, f] =>
    if w = [] ∧ f = [] then none
    else
      match (if w = [] then some 0 else parseNat w) with
      | none => none
      | some a =>
        match (if f = [] then some 0 else parseNat f) with
        | none => none
        | some b => some ((a : ℚ) + (b : ℚ) / (10 : ℚ) ^ f.length)
  | _ => none

/-- Model of Python `float(s)` on the simple decimal literals this program
feeds it (`0.05`, `12`, `-3.5`, …), read as an exact rational.  Binary
floating-point rounding is not modelled. -/
def parseFloat (s : List Char) : Option ℚ :=
  if s.head? = some '-' then (parseFloatAbs (s.drop 1)).map (fun q => -q)
  else if s.head? = some '+' then parseFloatAbs (s.drop 1)
  else parseFloatAbs s

/-! ### Duration codec -/

/-- The power-of-two denominators, largest note value first
(`POW2_DENOMS` in musicxml_to_song.py). -/
def POW2_DENOMS : List ℕ := [1, 2, 4, 8, 16, 32, 64]

/-- One iteration step of the continued-fraction loop of CPython
`Fraction.limit_denominator`; the state is `(p0, q0, p1, q1, n, d)`.
The `d = 0` guard is unreachable on the inputs Python feeds it (the loop
breaks on `q2 > maxD` before `d` reaches 0); fuel `den + 1` exceeds the
number of continued-fraction steps. -/
def ldLoop (maxD : ℤ) : ℕ → ℤ → ℤ → ℤ → ℤ → ℤ → ℤ → ℤ × ℤ × ℤ × ℤ × ℤ × ℤ
  | 0, p0, q0, p1, q1, n, d => (p0, q0, p1, q1, n, d)
  | fuel + 1, p0, q0, p1, q1, n, d =>
    if d = 0 then (p0, q0, p1, q1, n, d)
    else
      let a := Int.fdiv n d
      let q2 := q0 + a * q1
      if maxD < q2 then (p0, q0, p1, q1, n, d)
      else ldLoop maxD fuel p1 q1 (p0 + a * p1) q2 d (n - a * d)

/-- Model of Python `Fraction.limit_denominator(maxDen)`: the value itself
when its denominator is at most `maxDen`, otherwise the closest fraction
with denominator at most `maxDen` (CPython continued-fraction algorithm). -/
def limit_denominator (x : ℚ) (maxDen : ℕ) : ℚ :=
  if x.den ≤ maxDen then x
  else
    match ldLoop (maxDen : ℤ) (x.den + 1) 0 1 1 0 x.num (x.den : ℤ) with
    | (p0, q0, p1, q1, _, d) =>
      let k := Int.fdiv ((maxDen : ℤ) - q0) q1
      if 2 * d * (q0 + k * q1) ≤ (x.den : ℤ) then ((p1 : ℚ)) / ((q1 : ℚ))
      else (((p0 + k * p1 : ℤ) : ℚ)) / (((q0 + k * q1 : ℤ) : ℚ))

/-- One denominator of the greedy loop of `fraction_to_spec`: the inner
`while remaining >= part` loop appends `str(denom)` once per subtraction
of `part = 4/denom`; it runs exactly `⌊remaining/part⌋` times (0 when the
remainder is below `part`, also when negative), leaving
`remaining - count * part`.  Parts are kept as numerals and rendered by
`natToChars` at the join. -/
def specStep (acc : List ℕ × ℚ) (denom : ℕ) : List ℕ × ℚ :=
  let part : ℚ := 4 / (denom : ℚ)
  let count : ℕ := (Int.floor (acc.2 / part)).toNat
  (acc.1 ++ List.replicate count denom, acc.2 - (count : ℚ) * part)

/-- Model of `fraction_to_spec` (musicxml_to_song.py): greedily decompose
`value.limit_denominator(64)` over `POW2_DENOMS`, largest unit first; a
nonzero final remainder raises `ValueError` carrying the offending value
(modelled by the error payload). -/
def fraction_to_spec (value : ℚ) : Except ℚ (List Char) :=
  let remaining := limit_denominator value 64
  let r := POW2_DENOMS.foldl specStep ([], remaining)
  if r.2 ≠ 0 then Except.error value
  else Except.ok (joinPlus (r.1.map natToChars))

/-- The term-summation loop of `parse_duration`: for each `+`-separated
chunk, `total += q*(4.0/int(p))`; `int` failure is a ValueError and a zero
term a ZeroDivisionError, each aborting the call. -/
def sumTermsStr (q : ℚ) : ℚ → List (List Char) → Except String ℚ
  | acc, [] => Except.ok acc
  | acc, p :: ps =>
    match parseNat p with
    | none => Except.error "ValueError"
    | some n =>
      if n = 0 then Except.error "ZeroDivisionError"
      else sumTermsStr q (acc + q * (4 / (n : ℚ))) ps

/-- Model of `parse_duration` (ocarina_player.py): an empty specifier means
`q*(4.0/unit)`; otherwise the `+`-separated terms are summed by
`sumTermsStr`; each dot multiplies the total by 1.5. -/
def parse_duration (spec : List Char) (unit : ℤ) (q : ℚ) (dots : ℕ) : Except String ℚ :=
  if spec = [] then
    if unit = 0 then Except.error "ZeroDivisionError"
    else Except.ok (q * (4 / (unit : ℚ)) * (3 / 2 : ℚ) ^ dots)
  else
    (sumTermsStr q 0 (splitOnChar '+' spec)).map (fun t => t * (3 / 2 : ℚ) ^ dots)

/-! ### Decimal print/parse round-trip -/

lemma charDigit_digitChar (d : ℕ) (h : d < 10) : charDigit (Nat.digitChar d) = some d := by
  interval_cases d <;> rfl

lemma parseNatAux_append (l1 l2 : List Char) :
    ∀ acc, parseNatAux acc (l1 ++ l2) = (parseNatAux acc l1).bind (fun a => parseNatAux a l2) := by
  induction l1 with
  | nil => intro acc; simp [parseNatAux]
  | cons c cs ih =>
    intro acc
    simp only [List.cons_append, parseNatAux]
    cases h : charDigit c with
    | some d => simp [ih]
    | none => simp

lemma parseNatAux_natToCharsAux (fuel : ℕ) :
    ∀ n, n ≤ fuel → ∀ acc, parseNatAux acc (natToCharsAux fuel n) =
      some (acc * 10 ^ (natToCharsAux fuel n).length + n) := by
  induction fuel with
  | zero =>
    intro n hn acc
    interval_cases n
    simp [natToCharsAux, parseNatAux]
  | succ fuel ih =>
    intro n hn acc
    match n with
    | 0 => simp [natToCharsAux, parseNatAux]
    | m + 1 =>
      have hdiv : (m + 1) / 10 ≤ fuel := by
        have := Nat.div_lt_self (Nat.succ_pos m) (by norm_num : 1 < 10)
        omega
      have hmod : (m + 1) % 10 < 10 := Nat.mod_lt _ (by norm_num)
      simp only [natToCharsAux, parseNatAux_append, ih _ hdiv, Option.some_bind,
        parseNatAux, charDigit_digitChar _ hmod, List.length_append, List.length_cons,
        List.length_nil, Option.some.injEq, Nat.zero_add, pow_succ]
      rw [← mul_assoc]
      generalize acc * 10 ^ (natToCharsAux fuel ((m + 1) / 10)).length = a
      omega

lemma parseNat_natToChars (n : ℕ) : parseNat (natToChars n) = some n := by
  by_cases h0 : n = 0
  · subst h0; rfl
  · have h := parseNatAux_natToCharsAux n n le_rfl 0
    by_cases hnil : natToCharsAux n n = []
    · rw [hnil] at h
      simp [parseNatAux] at h
      omega
    · simp only [natToChars, h0, if_false, parseNat, hnil, if_false, h, zero_mul, zero_add]

lemma natToCharsAux_not_plus (fuel : ℕ) :
    ∀ n, ∀ c ∈ natToCharsAux fuel n, (c == '+') = false := by
  induction fuel with
  | zero => intro n c hc; cases n <;> simp [natToCharsAux] at hc
  | succ fuel ih =>
    intro n c hc
    match n with
    | 0 => simp [natToCharsAux] at hc
    | m + 1 =>
      simp only [natToCharsAux, List.mem_append, List.mem_singleton] at hc
      rcases hc with hc | hc
      · exact ih _ c hc
      · subst hc
        have hmod : (m + 1) % 10 < 10 := Nat.mod_lt _ (by norm_num)
        set r := (m + 1) % 10 with hr
        interval_cases r <;> decide

lemma natToChars_not_plus (n : ℕ) : ∀ c ∈ natToChars n, (c == '+') = false := by
  intro c hc
  by_cases h0 : n = 0
  · subst h0; simp [natToChars] at hc; subst hc; decide
  · simp only [natToChars, h0, if_false] at hc
    exact natToCharsAux_not_plus n n c hc

lemma natToChars_ne_nil (n : ℕ) : natToChars n ≠ [] := by
  by_cases h0 : n = 0
  · subst h0; simp [natToChars]
  · simp only [natToChars, h0, if_false]
    intro hnil
    have h := parseNatAux_natToCharsAux n n le_rfl 0
    rw [hnil] at h
    simp [parseNatAux] at h
    omega

/-! ### split and join -/

lemma splitOnP_ne_nil (p : Char → Bool) (l : List Char) : splitOnP p l ≠ [] := by
  induction l with
  | nil => simp [splitOnP]
  | cons c cs ih =>
    by_cases h : p c
    · simp [splitOnP, h]
    · simp only [splitOnP, h, if_false]
      cases hs : splitOnP p cs <;> simp

lemma splitOnP_sepFree (p : Char → Bool) (l : List Char) (h : ∀ c ∈ l, p c = false) :
    splitOnP p l = [l] := by
  induction l with
  | nil => rfl
  | cons c cs ih =>
    have hc : p c = false := h c (by simp)
    have hcs : splitOnP p cs = [cs] := ih (fun x hx => h x (by simp [hx]))
    simp [splitOnP, hc, hcs]

lemma splitOnP_append_sep (p : Char → Bool) (s : Char) (hs : p s = true) (pre suf : List Char)
    (hpre : ∀ c ∈ pre, p c = false) :
    splitOnP p (pre ++ s :: suf) = pre :: splitOnP p suf := by
  induction pre with
  | nil => simp [splitOnP, hs]
  | cons c cs ih =>
    have hc : p c = false := hpre c (by simp)
    have hcs := ih (fun x hx => hpre x (by simp [hx]))
    simp [splitOnP, hc, hcs]

lemma splitOnChar_joinPlus (chunks : List (List Char)) (hne : chunks ≠ [])
    (h : ∀ ch ∈ chunks, ∀ c ∈ ch, (c == '+') = false) :
    splitOnChar '+' (joinPlus chunks) = chunks := by
  induction chunks with
  | nil => exact absurd rfl hne
  | cons ch rest ih =>
    match rest with
    | [] =>
      simp only [joinPlus, splitOnChar]
      exact splitOnP_sepFree _ ch (h ch (by simp))
    | ch2 :: rest2 =>
      have hjoin : joinPlus (ch :: ch2 :: rest2) = ch ++ '+' :: joinPlus (ch2 :: rest2) := rfl
      rw [hjoin, splitOnChar, splitOnP_append_sep _ '+' (by decide) ch _ (h ch (by simp))]
      have := ih (by simp) (fun x hx => h x (by simp [hx]))
      rw [splitOnChar] at this
      rw [this]

lemma joinPlus_ne_nil (chunks : List (List Char)) (hne : chunks ≠ [])
    (h : ∀ ch ∈ chunks, ch ≠ []) : joinPlus chunks ≠ [] := by
  match chunks with
  | [] => exact absurd rfl hne
  | [ch] => exact h ch (by simp)
  | ch :: ch2 :: rest =>
    have : joinPlus (ch :: ch2 :: rest) = ch ++ '+' :: joinPlus (ch2 :: rest) := rfl
    rw [this]
    simp

/-! ### Decoding a rendered term list -/

lemma sumTermsStr_map_natToChars (q : ℚ) (terms : List ℕ) (h : ∀ t ∈ terms, t ≠ 0) :
    ∀ acc, sumTermsStr q acc (terms.map natToChars) =
      Except.ok (acc + (terms.map (fun t : ℕ => q * (4 / (t : ℚ)))).sum) := by
  induction terms with
  | nil => intro acc; simp [sumTermsStr]
  | cons t ts ih =>
    intro acc
    have ht : t ≠ 0 := h t (by simp)
    have hts : ∀ x ∈ ts, x ≠ 0 := fun x hx => h x (by simp [hx])
    simp only [List.map_cons, sumTermsStr, parseNat_natToChars, ht, if_false, ih hts,
      List.sum_cons]
    rw [add_assoc]

lemma sumTermsStr_zero_mem (q : ℚ) (terms : List ℕ) (h : 0 ∈ terms) :
    ∀ acc, sumTermsStr q acc (terms.map natToChars) = Except.error "ZeroDivisionError" := by
  induction terms with
  | nil => simp at h
  | cons t ts ih =>
    intro acc
    by_cases ht : t = 0
    · subst ht; simp [sumTermsStr, parseNat_natToChars]
    · have hts : 0 ∈ ts := by
        rcases List.mem_cons.mp h with h1 | h1
        · exact absurd h1.symm ht
        · exact h1
      simp [sumTermsStr, parseNat_natToChars, ht, ih hts]

lemma parse_duration_join (terms : List ℕ) (hne : terms ≠ []) (h : ∀ t ∈ terms, t ≠ 0)
    (unit : ℤ) (q : ℚ) (dots : ℕ) :
    parse_duration (joinPlus (terms.map natToChars)) unit q dots =
      Except.ok ((terms.map (fun t : ℕ => q * (4 / (t : ℚ)))).sum * (3 / 2 : ℚ) ^ dots) := by
  have hmapne : terms.map natToChars ≠ [] := by simp [hne]
  have hjoin : joinPlus (terms.map natToChars) ≠ [] :=
    joinPlus_ne_nil _ hmapne (by
      intro ch hch
      rcases List.mem_map.mp hch with ⟨t, _, rfl⟩
      exact natToChars_ne_nil t)
  have hsplit : splitOnChar '+' (joinPlus (terms.map natToChars)) = terms.map natToChars :=
    splitOnChar_joinPlus _ hmapne (by
      intro ch hch
      rcases List.mem_map.mp hch with ⟨t, _, rfl⟩
      exact natToChars_not_plus t)
  simp only [parse_duration, hjoin, if_false, hsplit, sumTermsStr_map_natToChars q terms h 0,
    zero_add, Except.map]

lemma parse_duration_join_zero (terms : List ℕ) (h : 0 ∈ terms)
    (unit : ℤ) (q : ℚ) (dots : ℕ) :
    parse_duration (joinPlus (terms.map natToChars)) unit q dots =
      Except.error "ZeroDivisionError" := by
  have hne : terms ≠ [] := by rintro rfl; simp at h
  have hmapne : terms.map natToChars ≠ [] := by simp [hne]
  have hjoin : joinPlus (terms.map natToChars) ≠ [] :=
    joinPlus_ne_nil _ hmapne (by
      intro ch hch
      rcases List.mem_map.mp hch with ⟨t, _, rfl⟩
      exact natToChars_ne_nil t)
  have hsplit : splitOnChar '+' (joinPlus (terms.map natToChars)) = terms.map natToChars :=
    splitOnChar_joinPlus _ hmapne (by
      intro ch hch
      rcases List.mem_map.mp hch with ⟨t, _, rfl⟩
      exact natToChars_not_plus t)
  simp only [parse_duration, hjoin, if_false, hsplit, sumTermsStr_zero_mem q terms h 0,
    Except.map]

/-! ### Greedy decomposition: invariants -/

lemma POW2_mem (d : ℕ) (h : d ∈ POW2_DENOMS) : 0 < d ∧ d ∣ 64 ∧ d ≤ 64 := by
  fin_cases h <;> norm_num

/-- Denominator bound from an integer multiple: if `d * x` is an integer then
the reduced denominator of `x` is at most `d`. -/
lemma den_le_of_mul_eq (x : ℚ) (d : ℕ) (n : ℤ) (hd : 0 < d) (h : (d : ℚ) * x = (n : ℚ)) :
    x.den ≤ d := by
  have hdq : (d : ℚ) ≠ 0 := by positivity
  have hx : x = Rat.divInt n (d : ℤ) := by
    rw [Rat.divInt_eq_div]
    field_simp
    linarith [h]
  have hdvd : ((Rat.divInt n (d : ℤ)).den : ℤ) ∣ (d : ℤ) := Rat.den_dvd n (d : ℤ)
  have hdvd' : (Rat.divInt n (d : ℤ)).den ∣ d := by exact_mod_cast hdvd
  rw [hx]
  exact Nat.le_of_dvd hd hdvd'

lemma limit_denominator_self (x : ℚ) (m : ℕ) (h : x.den ≤ m) : limit_denominator x m = x := by
  simp [limit_denominator, h]

/-- Bounds for the count of greedy subtractions at one denominator. -/
lemma floor_count_bounds (rem part : ℚ) (hp : 0 < part) (hr : 0 ≤ rem) :
    (((Int.floor (rem / part)).toNat : ℚ) * part ≤ rem) ∧
    (rem - ((Int.floor (rem / part)).toNat : ℚ) * part < part) := by
  have h0 : 0 ≤ rem / part := div_nonneg hr hp.le
  have hf0 : (0 : ℤ) ≤ Int.floor (rem / part) := Int.floor_nonneg.mpr h0
  have hcast : (((Int.floor (rem / part)).toNat : ℚ)) = ((Int.floor (rem / part) : ℤ) : ℚ) := by
    exact_mod_cast congrArg (fun z : ℤ => (z : ℚ)) (Int.toNat_of_nonneg hf0)
  constructor
  · rw [hcast]
    have hle : ((Int.floor (rem / part) : ℤ) : ℚ) ≤ rem / part := Int.floor_le _
    calc ((Int.floor (rem / part) : ℤ) : ℚ) * part ≤ (rem / part) * part := by
          exact mul_le_mul_of_nonneg_right hle hp.le
      _ = rem := div_mul_cancel₀ rem hp.ne'
  · rw [hcast]
    have hlt : rem / part < ((Int.floor (rem / part) : ℤ) : ℚ) + 1 := Int.lt_floor_add_one _
    have := (div_lt_iff₀ hp).mp hlt
    nlinarith [this]

/-- The fold of `specStep` keeps the running remainder nonnegative and a
multiple of 1/16, transfers exactly the consumed amount into the emitted
parts, only ever decreases the remainder, and ends below every processed
part size. -/
lemma greedy_fold (ds : List ℕ) : ∀ (parts : List ℕ) (rem : ℚ),
    (∀ d ∈ ds, 0 < d ∧ d ∣ 64) → 0 ≤ rem → (∃ z : ℤ, 16 * rem = (z : ℚ)) →
    (((ds.foldl specStep (parts, rem)).1.map (fun t : ℕ => (4 : ℚ) / (t : ℚ))).sum
        = (parts.map (fun t : ℕ => (4 : ℚ) / (t : ℚ))).sum + rem - (ds.foldl specStep (parts, rem)).2)
    ∧ 0 ≤ (ds.foldl specStep (parts, rem)).2
    ∧ (∃ z : ℤ, 16 * (ds.foldl specStep (parts, rem)).2 = (z : ℚ))
    ∧ (∀ p ∈ (ds.foldl specStep (parts, rem)).1, p ∈ parts ∨ p ∈ ds)
    ∧ (∀ d ∈ ds, (ds.foldl specStep (parts, rem)).2 < 4 / (d : ℚ))
    ∧ (ds.foldl specStep (parts, rem)).2 ≤ rem := by
  induction ds with
  | nil =>
    intro parts rem _ hr hz
    refine ⟨by simp, hr, hz, by simp, by simp, le_rfl⟩
  | cons d ds ih =>
    intro parts rem hmem hr hz
    have hd0 : 0 < d := (hmem d (by simp)).1
    have hddvd : d ∣ 64 := (hmem d (by simp)).2
    have hdq : (0 : ℚ) < (d : ℚ) := by exact_mod_cast hd0
    have hpart : (0 : ℚ) < 4 / (d : ℚ) := by positivity
    have hstep : specStep (parts, rem) d =
        (parts ++ List.replicate ((Int.floor (rem / (4 / (d : ℚ)))).toNat) d,
          rem - (((Int.floor (rem / (4 / (d : ℚ)))).toNat : ℚ)) * (4 / (d : ℚ))) := rfl
    obtain ⟨hcle, hclt⟩ := floor_count_bounds rem (4 / (d : ℚ)) hpart hr
    set n : ℕ := (Int.floor (rem / (4 / (d : ℚ)))).toNat with hn
    set rem1 : ℚ := rem - (n : ℚ) * (4 / (d : ℚ)) with hrem1
    have hn0 : (0 : ℚ) ≤ (n : ℚ) := Nat.cast_nonneg n
    have hr1 : 0 ≤ rem1 := by rw [hrem1]; linarith [hcle]
    have hz1 : ∃ z : ℤ, 16 * rem1 = (z : ℚ) := by
      obtain ⟨z, hzz⟩ := hz
      obtain ⟨c, hc⟩ := hddvd
      refine ⟨z - (n : ℤ) * (c : ℤ), ?_⟩
      have hcq : (64 : ℚ) = (d : ℚ) * (c : ℚ) := by exact_mod_cast congrArg (Nat.cast : ℕ → ℚ) hc
      have h64 : (64 : ℚ) / (d : ℚ) = (c : ℚ) := by
        rw [hcq]
        exact mul_div_cancel_left₀ _ hdq.ne'
      have hexpand : 16 * rem1 = 16 * rem - (n : ℚ) * ((64 : ℚ) / (d : ℚ)) := by
        rw [hrem1]; ring
      rw [hexpand, h64, hzz]
      push_cast
      ring
    have hmems : ∀ x ∈ ds, 0 < x ∧ x ∣ 64 := fun x hx => hmem x (by simp [hx])
    have hfold : (d :: ds).foldl specStep (parts, rem)
        = ds.foldl specStep (parts ++ List.replicate n d, rem1) := by
      rw [List.foldl_cons, hstep]
    obtain ⟨ihsum, ihpos, ihz, ihmem, ihlt, ihle⟩ := ih (parts ++ List.replicate n d) rem1 hmems hr1 hz1
    rw [hfold]
    refine ⟨?_, ihpos, ihz, ?_, ?_, ?_⟩
    · rw [ihsum]
      simp only [List.map_append, List.sum_append, List.map_replicate, List.sum_replicate]
      rw [hrem1, nsmul_eq_mul]
      ring
    · intro p hp
      rcases ihmem p hp with hmempp | hmempp
      · rcases List.mem_append.mp hmempp with h1 | h1
        · exact Or.inl h1
        · exact Or.inr (by simp [List.eq_of_mem_replicate h1])
      · exact Or.inr (by simp [hmempp])
    · intro e he
      rcases List.mem_cons.mp he with he1 | he2
      · rw [he1]
        exact lt_of_le_of_lt ihle hclt
      · exact ihlt e he2
    · calc (ds.foldl specStep (parts ++ List.replicate n d, rem1)).2 ≤ rem1 := ihle
        _ ≤ rem := by rw [hrem1]; nlinarith [hn0, hpart]

lemma sum_pow2_sixteen (L : List ℕ) (h : ∀ d ∈ L, d ∈ POW2_DENOMS) :
    ∃ N : ℕ, 16 * ((L.map (fun t : ℕ => (4 : ℚ) / (t : ℚ))).sum) = (N : ℚ) := by
  induction L with
  | nil => exact ⟨0, by simp⟩
  | cons d t ih =>
    obtain ⟨N, hN⟩ := ih (fun x hx => h x (by simp [hx]))
    have hd0 : 0 < d := (POW2_mem d (h d (by simp))).1
    obtain ⟨c, hc⟩ := (POW2_mem d (h d (by simp))).2.1
    refine ⟨c + N, ?_⟩
    have hdq : (0 : ℚ) < (d : ℚ) := by exact_mod_cast hd0
    have hcq : (64 : ℚ) = (d : ℚ) * (c : ℚ) := by exact_mod_cast congrArg (Nat.cast : ℕ → ℚ) hc
    have h64 : (16 : ℚ) * (4 / (d : ℚ)) = (c : ℚ) := by
      rw [show (16 : ℚ) * (4 / (d : ℚ)) = 64 / (d : ℚ) by ring, hcq]
      exact mul_div_cancel_left₀ _ hdq.ne'
    simp only [List.map_cons, List.sum_cons]
    push_cast
    rw [mul_add, h64, hN]

lemma sum_pow2_pos (L : List ℕ) (hne : L ≠ []) (h : ∀ d ∈ L, d ∈ POW2_DENOMS) :
    0 < (L.map (fun t : ℕ => (4 : ℚ) / (t : ℚ))).sum := by
  match L with
  | d :: t =>
    simp only [List.map_cons, List.sum_cons]
    have hd0 : 0 < d := (POW2_mem d (h d (by simp))).1
    have hdq : (0 : ℚ) < (d : ℚ) := by exact_mod_cast hd0
    have hpos : (0 : ℚ) < 4 / (d : ℚ) := by positivity
    have hrest : 0 ≤ (t.map (fun t : ℕ => (4 : ℚ) / (t : ℚ))).sum := by
      apply List.sum_nonneg
      intro y hy
      rcases List.mem_map.mp hy with ⟨x, _, rfl⟩
      positivity
    linarith

/-- C1: codec round-trip.  For every rational quarter-length value `v`
expressible as a nonempty sum of terms `4/d` with `d ∈ {1,2,4,8,16,32,64}`,
`fraction_to_spec v` succeeds with a non-empty specifier string, and
`parse_duration` of that string (quarterSeconds 1, no dots, any unit)
returns exactly `v`. -/
theorem C1_codec_roundtrip (v : ℚ) (unit : ℤ)
    (h : ∃ L : List ℕ, L ≠ [] ∧ (∀ d ∈ L, d ∈ POW2_DENOMS) ∧
      v = (L.map (fun t : ℕ => (4 : ℚ) / (t : ℚ))).sum) :
    ∃ s : List Char, fraction_to_spec v = Except.ok s ∧ s ≠ [] ∧
      parse_duration s unit 1 0 = Except.ok v := by
  obtain ⟨L, hLne, hLmem, hv⟩ := h
  have hvpos : 0 < v := hv ▸ sum_pow2_pos L hLne hLmem
  obtain ⟨N, hN⟩ : ∃ N : ℕ, 16 * v = (N : ℚ) := hv ▸ sum_pow2_sixteen L hLmem
  have hz : ∃ z : ℤ, 16 * v = (z : ℚ) := ⟨N, by exact_mod_cast hN⟩
  have hden : v.den ≤ 64 :=
    le_trans (den_le_of_mul_eq v 16 (N : ℤ) (by norm_num) (by exact_mod_cast hN)) (by norm_num)
  have hlim : limit_denominator v 64 = v := limit_denominator_self v 64 hden
  have hPOW : ∀ d ∈ POW2_DENOMS, 0 < d ∧ d ∣ 64 :=
    fun d hd => ⟨(POW2_mem d hd).1, (POW2_mem d hd).2.1⟩
  obtain ⟨hsum, hpos, hz2, hmem2, hlt2, _⟩ := greedy_fold POW2_DENOMS [] v hPOW hvpos.le hz
  set r := POW2_DENOMS.foldl specStep ([], v) with hr
  have hlt64 : r.2 < 4 / (64 : ℚ) := hlt2 64 (by simp [POW2_DENOMS])
  obtain ⟨z2, hz2'⟩ := hz2
  have hzero : r.2 = 0 := by
    have h1 : (0 : ℚ) ≤ (z2 : ℚ) := by rw [← hz2']; linarith [hpos]
    have h2 : (z2 : ℚ) < 1 := by rw [← hz2']; linarith [hlt64]
    have h1' : (0 : ℤ) ≤ z2 := by exact_mod_cast h1
    have h2' : z2 < 1 := by exact_mod_cast h2
    have hz20 : z2 = 0 := by omega
    rw [hz20] at hz2'
    push_cast at hz2'
    linarith
  have hsum' : (r.1.map (fun t : ℕ => (4 : ℚ) / (t : ℚ))).sum = v := by
    rw [hsum, hzero]
    simp
  have hspec : fraction_to_spec v = Except.ok (joinPlus (r.1.map natToChars)) := by
    simp only [fraction_to_spec, hlim, ← hr, hzero]
    simp
  have hparts_ne : r.1 ≠ [] := by
    intro hemp
    rw [hemp] at hsum'
    simp at hsum'
    exact absurd hsum'.symm hvpos.ne'
  have hparts_nz : ∀ p ∈ r.1, p ≠ 0 := by
    intro p hp
    rcases hmem2 p hp with h1 | h1
    · simp at h1
    · exact (POW2_mem p h1).1.ne'
  have hdec : (r.1.map (fun t : ℕ => (1 : ℚ) * (4 / (t : ℚ)))).sum * (3 / 2 : ℚ) ^ 0 = v := by
    simp only [one_mul, pow_zero, mul_one, hsum']
  refine ⟨joinPlus (r.1.map natToChars), hspec, ?_, ?_⟩
  · exact joinPlus_ne_nil _ (by simp [hparts_ne]) (by
      intro ch hch
      rcases List.mem_map.mp hch with ⟨t, _, rfl⟩
      exact natToChars_ne_nil t)
  · rw [parse_duration_join r.1 hparts_ne hparts_nz unit 1 0, hdec]

/-- Witness for C1 at the concrete value 3/2 = 4/4 + 4/8, unit 8. -/
theorem C1_codec_roundtrip_witness :
    ∃ s : List Char, fraction_to_spec (3 / 2 : ℚ) = Except.ok s ∧ s ≠ [] ∧
      parse_duration s 8 1 0 = Except.ok (3 / 2 : ℚ) :=
  C1_codec_roundtrip (3 / 2) 8 ⟨[4, 8], by decide, by decide, by
    simp only [List.map_cons, List.map_nil, List.sum_cons, List.sum_nil]
    norm_num⟩

/-! ### The spec-side greedy loop and its equivalence with `fraction_to_spec` -/

/-- Greedy decomposition written as the spec words it: repeatedly subtract
the largest term `4/d` (denominators in the given fixed order) while the
remainder is at least that term, one emitted atom per subtraction.  `fuel`
bounds the number of loop steps (subtractions plus denominator advances);
any `fuel ≥ 16*rem + |ds|` is enough when every `d` is in 1..64. -/
def greedyAtoms : ℕ → List ℕ → ℚ → List ℕ × ℚ
  | 0, _, rem => ([], rem)
  | _ + 1, [], rem => ([], rem)
  | fuel + 1, d :: ds, rem =>
    if 4 / (d : ℚ) ≤ rem then
      ((d :: (greedyAtoms fuel (d :: ds) (rem - 4 / (d : ℚ))).1),
        (greedyAtoms fuel (d :: ds) (rem - 4 / (d : ℚ))).2)
    else greedyAtoms fuel ds rem

lemma greedyAtoms_loop (d : ℕ) (ds : List ℕ) (hd : 0 < d) :
    ∀ (n fuel : ℕ) (rem : ℚ), n + 1 ≤ fuel →
      (n : ℚ) * (4 / (d : ℚ)) ≤ rem → rem < ((n : ℚ) + 1) * (4 / (d : ℚ)) →
      greedyAtoms fuel (d :: ds) rem =
        (List.replicate n d ++
            (greedyAtoms (fuel - n - 1) ds (rem - (n : ℚ) * (4 / (d : ℚ)))).1,
          (greedyAtoms (fuel - n - 1) ds (rem - (n : ℚ) * (4 / (d : ℚ)))).2) := by
  intro n
  induction n with
  | zero =>
    intro fuel rem hfuel hle hlt
    match fuel, hfuel with
    | f + 1, _ =>
      have hnotle : ¬ (4 / (d : ℚ) ≤ rem) := by
        push_cast at hlt
        intro hc
        linarith
      simp only [greedyAtoms, hnotle, if_false]
      norm_num
  | succ m ih =>
    intro fuel rem hfuel hle hlt
    match fuel, hfuel with
    | f + 1, _ =>
      have hdq : (0 : ℚ) < (d : ℚ) := by exact_mod_cast hd
      have hpart : (0 : ℚ) < 4 / (d : ℚ) := by positivity
      have hm0 : (0 : ℚ) ≤ (m : ℚ) := Nat.cast_nonneg m
      have hge : 4 / (d : ℚ) ≤ rem := by
        push_cast at hle
        nlinarith
      simp only [greedyAtoms, hge, if_true]
      have hrec := ih f (rem - 4 / (d : ℚ)) (by omega)
        (by push_cast at hle ⊢; nlinarith) (by push_cast at hlt ⊢; nlinarith)
      rw [hrec]
      have hfa : f - m - 1 = f + 1 - (m + 1) - 1 := by omega
      have hra : rem - 4 / (d : ℚ) - (m : ℚ) * (4 / (d : ℚ))
          = rem - ((m + 1 : ℕ) : ℚ) * (4 / (d : ℚ)) := by
        push_cast
        ring
      rw [hfa, hra, List.replicate_succ, List.cons_append]

lemma foldl_specStep_append (ds : List ℕ) : ∀ (p : List ℕ × ℚ),
    ds.foldl specStep p =
      (p.1 ++ (ds.foldl specStep ([], p.2)).1, (ds.foldl specStep ([], p.2)).2) := by
  induction ds with
  | nil => intro p; simp
  | cons d ds ih =>
    intro p
    rw [List.foldl_cons, List.foldl_cons]
    have hs1 : specStep p d = (p.1 ++ (specStep ([], p.2) d).1, (specStep ([], p.2) d).2) := by
      cases p
      simp [specStep]
    rw [hs1, ih ⟨p.1 ++ (specStep ([], p.2) d).1, (specStep ([], p.2) d).2⟩,
      ih (specStep ([], p.2) d)]
    simp [List.append_assoc]

lemma greedyAtoms_eq_fold (ds : List ℕ) : ∀ (fuel : ℕ) (rem : ℚ),
    (∀ d ∈ ds, 0 < d ∧ d ≤ 64) → 0 ≤ rem → 16 * rem + (ds.length : ℚ) ≤ (fuel : ℚ) →
    greedyAtoms fuel ds rem = ds.foldl specStep ([], rem) := by
  induction ds with
  | nil =>
    intro fuel rem _ _ _
    match fuel with
    | 0 => rfl
    | f + 1 => rfl
  | cons d ds ih =>
    intro fuel rem hmem hr hfuel
    have hd0 : 0 < d := (hmem d (by simp)).1
    have hd64 : d ≤ 64 := (hmem d (by simp)).2
    have hdq : (0 : ℚ) < (d : ℚ) := by exact_mod_cast hd0
    have hdq64 : (d : ℚ) ≤ 64 := by exact_mod_cast hd64
    have hpart : (0 : ℚ) < 4 / (d : ℚ) := by positivity
    have hpart16 : (1 : ℚ) / 16 ≤ 4 / (d : ℚ) := by
      rw [div_le_div_iff₀ (by norm_num) hdq]
      linarith
    obtain ⟨hcle, hclt⟩ := floor_count_bounds rem (4 / (d : ℚ)) hpart hr
    set n : ℕ := (Int.floor (rem / (4 / (d : ℚ)))).toNat with hn
    have hn0 : (0 : ℚ) ≤ (n : ℚ) := Nat.cast_nonneg n
    have hn16 : (n : ℚ) ≤ 16 * rem := by
      have h1 : (n : ℚ) * (1 / 16) ≤ (n : ℚ) * (4 / (d : ℚ)) :=
        mul_le_mul_of_nonneg_left hpart16 hn0
      linarith
    have hlenq : (0 : ℚ) ≤ (ds.length : ℚ) := Nat.cast_nonneg _
    have hlencons : (((d :: ds).length : ℕ) : ℚ) = (ds.length : ℚ) + 1 := by
      push_cast [List.length_cons]
      ring
    have hfuel1 : n + 1 ≤ fuel := by
      have hq : (n : ℚ) + 1 ≤ (fuel : ℚ) := by
        rw [hlencons] at hfuel
        linarith
      exact_mod_cast hq
    have hclt' : rem < ((n : ℚ) + 1) * (4 / (d : ℚ)) := by nlinarith
    rw [greedyAtoms_loop d ds hd0 n fuel rem hfuel1 hcle hclt']
    have h64d : (1 : ℚ) ≤ 64 / (d : ℚ) := by
      rw [le_div_iff₀ hdq]
      linarith
    have hprod : (n : ℚ) * 1 ≤ (n : ℚ) * (64 / (d : ℚ)) :=
      mul_le_mul_of_nonneg_left h64d hn0
    have hr1 : 0 ≤ rem - (n : ℚ) * (4 / (d : ℚ)) := by linarith
    have hcastsub : ((fuel - n - 1 : ℕ) : ℚ) = (fuel : ℚ) - (n : ℚ) - 1 := by
      rw [Nat.cast_sub (by omega : 1 ≤ fuel - n), Nat.cast_sub (by omega : n ≤ fuel)]
      push_cast
      ring
    have hmems : ∀ x ∈ ds, 0 < x ∧ x ≤ 64 := fun x hx => hmem x (by simp [hx])
    have hfuelrec : 16 * (rem - (n : ℚ) * (4 / (d : ℚ))) + (ds.length : ℚ)
        ≤ ((fuel - n - 1 : ℕ) : ℚ) := by
      rw [hcastsub]
      have hfuel' : 16 * rem + ((ds.length : ℚ) + 1) ≤ (fuel : ℚ) := by
        push_cast [List.length_cons] at hfuel
        linarith
      have hbridge : (n : ℚ) * (64 / (d : ℚ)) = 16 * ((n : ℚ) * (4 / (d : ℚ))) := by ring
      linarith [hprod, hbridge, hfuel']
    rw [ih (fuel - n - 1) (rem - (n : ℚ) * (4 / (d : ℚ))) hmems hr1 hfuelrec]
    rw [List.foldl_cons]
    have hstep0 : specStep ([], rem) d =
        (List.replicate n d, rem - (n : ℚ) * (4 / (d : ℚ))) := by
      simp [specStep, ← hn]
    rw [hstep0, foldl_specStep_append ds ⟨List.replicate n d, rem - (n : ℚ) * (4 / (d : ℚ))⟩]

/-- C2: encode is the greedy largest-unit-first decomposition.  On every
nonnegative value with denominator dividing 64 (and any sufficient fuel),
`fraction_to_spec` returns exactly the atoms of the spec-side greedy loop
`greedyAtoms` when its final remainder is zero and fails carrying the
offending value otherwise; and the unrepresentable value 1/3 fails. -/
theorem C2_encode_greedy :
    (∀ (v : ℚ) (fuel : ℕ), 0 ≤ v → (∃ n : ℕ, v = (n : ℚ) / 64) →
      16 * v + 7 ≤ (fuel : ℚ) →
      fraction_to_spec v =
        (if (greedyAtoms fuel POW2_DENOMS v).2 = 0
         then Except.ok (joinPlus ((greedyAtoms fuel POW2_DENOMS v).1.map natToChars))
         else Except.error v))
    ∧ fraction_to_spec (1 / 3 : ℚ) = Except.error (1 / 3) := by
  constructor
  · rintro v fuel hv ⟨n, hn⟩ hfuel
    have hden : v.den ≤ 64 := by
      apply den_le_of_mul_eq v 64 (n : ℤ) (by norm_num)
      rw [hn]
      push_cast
      field_simp
    have hlim := limit_denominator_self v 64 hden
    have hmem : ∀ d ∈ POW2_DENOMS, 0 < d ∧ d ≤ 64 :=
      fun d hd => ⟨(POW2_mem d hd).1, (POW2_mem d hd).2.2⟩
    have hlen : ((POW2_DENOMS.length : ℕ) : ℚ) = 7 := by norm_num [POW2_DENOMS]
    have heq := greedyAtoms_eq_fold POW2_DENOMS fuel v hmem hv (by rw [hlen]; exact hfuel)
    rw [heq]
    simp only [fraction_to_spec, hlim]
    by_cases hz : (POW2_DENOMS.foldl specStep ([], v)).2 = 0
    · simp [hz]
    · simp [hz]
  · have hden : ((1 : ℚ) / 3).den ≤ 64 :=
      le_trans (den_le_of_mul_eq _ 3 1 (by norm_num) (by norm_num)) (by norm_num)
    have hlim := limit_denominator_self (1 / 3 : ℚ) 64 hden
    have hfold : POW2_DENOMS.foldl specStep ([], (1 / 3 : ℚ)) = ([16, 64], 1 / 48) := by
      norm_num [POW2_DENOMS, specStep, List.foldl]
    simp only [fraction_to_spec, hlim, hfold]
    norm_num

/-- Witness for C2 at the concrete value 3/2 with fuel 50. -/
theorem C2_encode_greedy_witness :
    fraction_to_spec (3 / 2 : ℚ) =
      (if (greedyAtoms 50 POW2_DENOMS (3 / 2 : ℚ)).2 = 0
       then Except.ok (joinPlus ((greedyAtoms 50 POW2_DENOMS (3 / 2 : ℚ)).1.map natToChars))
       else Except.error (3 / 2 : ℚ)) :=
  C2_encode_greedy.1 (3 / 2) 50 (by norm_num) ⟨96, by norm_num⟩ (by norm_num)

/-- C6 counterexample: the term `3` is not one of 1,2,4,8,16,32,64, yet
`parse_duration` does not fail on the specifier `"3"`: it returns the
duration `q * 4/3` (here `q = 1`). -/
theorem C6_counterexample : parse_duration ['3'] 8 1 0 = Except.ok (4 / 3) := by
  simp +decide only [parse_duration, splitOnChar, splitOnP, sumTermsStr, parseNat, parseNatAux,
    charDigit, Except.map]
  norm_num

/-- C6 amended: `parse_duration` performs no membership validation on the
`+`-separated terms.  Any nonempty list of nonzero integer terms decodes to
the sum of `q*4/term` (times 1.5 per dot); a term equal to 0 fails with a
ZeroDivisionError (there is no FormatError path for terms). -/
theorem C6_decode_terms (terms : List ℕ) (unit : ℤ) (q : ℚ) (dots : ℕ) (hne : terms ≠ []) :
    ((∀ t ∈ terms, t ≠ 0) →
      parse_duration (joinPlus (terms.map natToChars)) unit q dots =
        Except.ok ((terms.map (fun t : ℕ => q * (4 / (t : ℚ)))).sum * (3 / 2 : ℚ) ^ dots))
    ∧ (0 ∈ terms →
      parse_duration (joinPlus (terms.map natToChars)) unit q dots =
        Except.error "ZeroDivisionError") := by
  constructor
  · intro h
    exact parse_duration_join terms hne h unit q dots
  · intro h
    exact parse_duration_join_zero terms h unit q dots

/-- Witness for C6 amended, at terms `[3]` (specifier `"3"`), unit 8,
quarterSeconds 1, no dots. -/
theorem C6_decode_terms_witness :
    parse_duration (joinPlus ([3].map natToChars)) 8 1 0 =
      Except.ok (([3].map (fun t : ℕ => (1 : ℚ) * (4 / (t : ℚ)))).sum * (3 / 2 : ℚ) ^ 0) :=
  (C6_decode_terms [3] 8 1 0 (by decide)).1 (by decide)

/-! ### Playback scheduler (ocarina_player.py) -/

/-- One external effect of the scheduler, in emission order: the pyautogui
key presses/releases, the sleeps, and the missing-mapping warning print. -/
inductive Action where
  | keyDown : String → Action
  | keyUp : String → Action
  | sleep : ℚ → Action
  | warn : List String → Action
deriving DecidableEq, Repr

/-- A parsed event of `parse_song`: the dict
`{notes, dur, hold, stagger, rep}`. -/
structure Event where
  notes : List String
  dur : ℚ
  hold : ℚ
  stagger : ℚ
  rep : ℤ
deriving DecidableEq, Repr

/-- Press phase of `chord_play`: key-down per key in textual order, with a
stagger sleep after every key but the last, only when `stagger > 0`. -/
def strumDown (keys : List String) (stagger : ℚ) : List Action :=
  keys.enum.flatMap (fun ik =>
    Action.keyDown ik.2 ::
      (if 0 < stagger ∧ ik.1 < keys.length - 1 then [Action.sleep stagger] else []))

/-- Release phase of `chord_play`: key-up over `reversed(keys)` with the
same stagger spacing. -/
def strumUp (keys : List String) (stagger : ℚ) : List Action :=
  keys.reverse.enum.flatMap (fun ik =>
    Action.keyUp ik.2 ::
      (if 0 < stagger ∧ ik.1 < keys.reverse.length - 1 then [Action.sleep stagger] else []))

/-- Model of `chord_play`: strum down, sleep `max(0.01, hold)`, strum up. -/
def chord_play (keys : List String) (hold stagger : ℚ) : List Action :=
  strumDown keys stagger ++ [Action.sleep (max (1 / 100) hold)] ++ strumUp keys stagger

/-- The key-resolution loop of `play`: `R` atoms are skipped; a note whose
mapping is absent or falsy (empty string) joins the missing list, otherwise
its key is appended in order. -/
def resolveKeys (mapping : String → Option String) : List String → List String × List String
  | [] => ([], [])
  | nt :: ns =>
    if nt = "R" then resolveKeys mapping ns
    else
      match mapping nt with
      | none => ((resolveKeys mapping ns).1, nt :: (resolveKeys mapping ns).2)
      | some k =>
        if k = "" then ((resolveKeys mapping ns).1, nt :: (resolveKeys mapping ns).2)
        else (k :: (resolveKeys mapping ns).1, (resolveKeys mapping ns).2)

/-- `used_hold = min(hold, max(0.01, slot-0.02))` from the repeat loop of `play`. -/
def used_hold (hold slot : ℚ) : ℚ := min hold (max (1 / 100) (slot - 2 / 100))

/-- `rest = max(0.0, slot - used_hold)` from the repeat loop of `play`. -/
def slot_rest (hold slot : ℚ) : ℚ := max 0 (slot - used_hold hold slot)

/-- Trace of one event in the main loop of `play`: a rest sleeps for the
duration; an event with any unmapped note warns with the missing list and
sleeps for the full duration; otherwise the duration is divided into
`max(1, rep)` equal slots, each playing the chord with `used_hold` and then
sleeping the remainder when positive. -/
def play_event (mapping : String → Option String) (ev : Event) : List Action :=
  let rep : ℤ := max 1 ev.rep
  if ev.notes = ["R"] then [Action.sleep ev.dur]
  else
    let r := resolveKeys mapping ev.notes
    if r.2 ≠ [] then [Action.warn r.2, Action.sleep ev.dur]
    else
      let slot := ev.dur / (rep : ℚ)
      (List.range rep.toNat).flatMap (fun _ =>
        chord_play r.1 (used_hold ev.hold slot) ev.stagger ++
          (if 0 < slot_rest ev.hold slot then [Action.sleep (slot_rest ev.hold slot)] else []))

/-- Trace of the event loop of `play` (loading, countdown and logging are
outside the model): events are processed strictly in order. -/
def playEvents (mapping : String → Option String) : List Event → List Action
  | [] => []
  | ev :: rest => play_event mapping ev ++ playEvents mapping rest

/-- C3 counterexample: with duration 0.025 s and repeat count 1 the computed
hold is 0.01, which exceeds `slot - 0.02 = 0.005`; moreover with duration
0.005 s the slot contribution `used_hold + rest = 0.01` does not sum to the
duration.  The claim fails as stated. -/
theorem C3_counterexample :
    ((0 : ℚ) < 1 / 40 ∧ (1 : ℤ) ≤ 1 ∧
      (1 / 40 : ℚ) / ((1 : ℤ) : ℚ) - 2 / 100
        < used_hold (12 / 100) ((1 / 40 : ℚ) / ((1 : ℤ) : ℚ)))
    ∧ ((0 : ℚ) < 1 / 200 ∧ (1 : ℤ) ≤ 1 ∧
      ((List.range 1).map (fun _ => used_hold (12 / 100) ((1 / 200 : ℚ) / ((1 : ℤ) : ℚ))
          + slot_rest (12 / 100) ((1 / 200 : ℚ) / ((1 : ℤ) : ℚ)))).sum ≠ (1 / 200 : ℚ)) := by
  constructor
  · refine ⟨by norm_num, le_rfl, ?_⟩
    norm_num [used_hold, min_def, max_def]
  · refine ⟨by norm_num, le_rfl, ?_⟩
    norm_num [used_hold, slot_rest, min_def, max_def, List.range_succ]

/-- C3 amended: with slot = D/n, the n slot contributions (hold plus rest)
sum to D provided each slot is at least 0.01 (the floor imposed on the
computed hold), the computed hold is at most `slot - 0.02` provided each
slot is at least 0.03, and in general the computed hold only respects the
floored bound `max(0.01, slot - 0.02)`. -/
theorem C3_slot_conservation (D hold : ℚ) (n : ℕ) (hn : 0 < n) :
    ((1 / 100 : ℚ) ≤ D / n →
      ((List.range n).map (fun _ => used_hold hold (D / n) + slot_rest hold (D / n))).sum = D)
    ∧ ((3 / 100 : ℚ) ≤ D / n → used_hold hold (D / n) ≤ D / n - 2 / 100)
    ∧ used_hold hold (D / n) ≤ max (1 / 100) (D / n - 2 / 100) := by
  refine ⟨?_, ?_, min_le_right _ _⟩
  · intro hslot
    have huh : used_hold hold (D / n) ≤ D / n := by
      have hmax : max (1 / 100 : ℚ) (D / n - 2 / 100) ≤ D / n := by
        rcases le_total (D / n - 2 / 100) (1 / 100 : ℚ) with h1 | h1
        · rw [max_eq_left h1]
          exact hslot
        · rw [max_eq_right h1]
          linarith
      exact le_trans (min_le_right _ _) hmax
    have hrest : slot_rest hold (D / n) = D / n - used_hold hold (D / n) := by
      rw [slot_rest, max_eq_right (by linarith)]
    have hconst : (List.range n).map
        (fun _ => used_hold hold (D / n) + slot_rest hold (D / n))
        = List.replicate n (used_hold hold (D / n) + slot_rest hold (D / n)) := by
      rw [show (fun _ : ℕ => used_hold hold (D / n) + slot_rest hold (D / n))
          = Function.const ℕ (used_hold hold (D / n) + slot_rest hold (D / n)) from rfl,
        List.map_const, List.length_range]
    rw [hconst, List.sum_replicate, nsmul_eq_mul, hrest]
    have hnq : ((n : ℚ)) ≠ 0 := by positivity
    field_simp
    ring
  · intro hslot
    have h1 : (1 / 100 : ℚ) ≤ D / n - 2 / 100 := by linarith
    calc used_hold hold (D / n) ≤ max (1 / 100) (D / n - 2 / 100) := min_le_right _ _
      _ = D / n - 2 / 100 := max_eq_right h1

/-- Witness for C3 amended at D = 1/2, hold = 0.12, n = 2. -/
theorem C3_slot_conservation_witness :
    ((1 / 100 : ℚ) ≤ (1 / 2 : ℚ) / (2 : ℕ) →
      ((List.range 2).map (fun _ => used_hold (12 / 100) ((1 / 2 : ℚ) / (2 : ℕ))
          + slot_rest (12 / 100) ((1 / 2 : ℚ) / (2 : ℕ)))).sum = 1 / 2)
    ∧ ((3 / 100 : ℚ) ≤ (1 / 2 : ℚ) / (2 : ℕ) →
      used_hold (12 / 100) ((1 / 2 : ℚ) / (2 : ℕ)) ≤ (1 / 2 : ℚ) / (2 : ℕ) - 2 / 100)
    ∧ used_hold (12 / 100) ((1 / 2 : ℚ) / (2 : ℕ))
        ≤ max (1 / 100) ((1 / 2 : ℚ) / (2 : ℕ) - 2 / 100) :=
  C3_slot_conservation (1 / 2) (12 / 100) 2 (by norm_num)

lemma enum_strum_intersperse (g : String → Action) (s : Action) (l : List String) :
    ∀ (j n : ℕ), l.length + j = n →
      (List.enumFrom j l).flatMap
          (fun ik => g ik.2 :: (if ik.1 < n - 1 then [s] else []))
        = (l.map g).intersperse s := by
  induction l with
  | nil => intro j n _; simp
  | cons x xs ih =>
    intro j n hlen
    match xs with
    | [] =>
      have hj : ¬ (j < n - 1) := by simp at hlen; omega
      simp [List.enumFrom, hj]
    | y :: ys =>
      have hj : j < n - 1 := by simp at hlen; omega
      have hrec := ih (j + 1) n (by simp at hlen ⊢; omega)
      simp only [List.enumFrom, List.flatMap_cons, hj, if_true, List.map_cons,
        List.intersperse_cons_cons] at hrec ⊢
      rw [hrec]
      simp

/-- C4: chord strum ordering.  With a positive stagger, the chord trace is
exactly: the key-down actions in textual left-to-right order with one
stagger sleep between consecutive downs and none after the last, then the
hold sleep, then the key-up actions in exactly the reverse order with the
same stagger spacing. -/
theorem C4_strum_order (keys : List String) (hold stagger : ℚ) (hst : 0 < stagger) :
    chord_play keys hold stagger =
      ((keys.map Action.keyDown).intersperse (Action.sleep stagger))
        ++ [Action.sleep (max (1 / 100) hold)]
        ++ ((keys.reverse.map Action.keyUp).intersperse (Action.sleep stagger)) := by
  have hfun1 : (fun ik : ℕ × String => Action.keyDown ik.2 ::
      (if 0 < stagger ∧ ik.1 < keys.length - 1 then [Action.sleep stagger] else []))
      = (fun ik : ℕ × String => Action.keyDown ik.2 ::
      (if ik.1 < keys.length - 1 then [Action.sleep stagger] else [])) := by
    funext ik
    simp [hst]
  have hfun2 : (fun ik : ℕ × String => Action.keyUp ik.2 ::
      (if 0 < stagger ∧ ik.1 < keys.reverse.length - 1 then [Action.sleep stagger] else []))
      = (fun ik : ℕ × String => Action.keyUp ik.2 ::
      (if ik.1 < keys.reverse.length - 1 then [Action.sleep stagger] else [])) := by
    funext ik
    simp [hst]
  have hdown : strumDown keys stagger
      = (keys.map Action.keyDown).intersperse (Action.sleep stagger) := by
    rw [strumDown, hfun1, show List.enum keys = List.enumFrom 0 keys from rfl,
      enum_strum_intersperse Action.keyDown (Action.sleep stagger) keys 0 keys.length
        (by omega)]
  have hup : strumUp keys stagger
      = (keys.reverse.map Action.keyUp).intersperse (Action.sleep stagger) := by
    rw [strumUp, hfun2, show List.enum keys.reverse = List.enumFrom 0 keys.reverse from rfl,
      enum_strum_intersperse Action.keyUp (Action.sleep stagger) keys.reverse 0
        keys.reverse.length (by omega)]
  rw [chord_play, hdown, hup]

/-- Witness for C4 at keys a, b, c with hold 0.05 and stagger 0.01. -/
theorem C4_strum_order_witness :
    chord_play ["a", "b", "c"] (5 / 100) (1 / 100) =
      ((["a", "b", "c"].map Action.keyDown).intersperse (Action.sleep (1 / 100)))
        ++ [Action.sleep (max (1 / 100) (5 / 100))]
        ++ ((["a", "b", "c"].reverse.map Action.keyUp).intersperse (Action.sleep (1 / 100))) :=
  C4_strum_order ["a", "b", "c"] (5 / 100) (1 / 100) (by norm_num)

lemma resolveKeys_missing_mem (mapping : String → Option String) :
    ∀ (notes : List String) (nt : String), nt ∈ notes → nt ≠ "R" → mapping nt = none →
      nt ∈ (resolveKeys mapping notes).2 := by
  intro notes
  induction notes with
  | nil => intro nt h; simp at h
  | cons m ms ih =>
    intro nt hmem hne hnone
    by_cases hm : m = "R"
    · have hms : nt ∈ ms := by
        rcases List.mem_cons.mp hmem with h1 | h1
        · exact absurd (h1 ▸ hm) hne
        · exact h1
      simp only [resolveKeys, hm, if_true]
      exact ih nt hms hne hnone
    · simp only [resolveKeys, hm, if_false]
      by_cases heq : nt = m
      · subst heq
        rw [hnone]
        simp
      · have hms : nt ∈ ms := by
          rcases List.mem_cons.mp hmem with h1 | h1
          · exact absurd h1 heq
          · exact h1
        cases hmap : mapping m with
        | none => simp [ih nt hms hne hnone]
        | some k =>
          by_cases hk : k = ""
          · simp [hk, ih nt hms hne hnone]
          · simp [hk, ih nt hms hne hnone]

/-- C5: missing-mapping degradation.  For an event that is not a pure rest
and has at least one non-rest note without a mapping, the scheduler emits
exactly a warning carrying the missing list followed by a sleep for the full
duration (so zero key-down/key-up actions), the missing list names every
unmapped note, and the remaining events are still processed. -/
theorem C5_missing_mapping (mapping : String → Option String) (ev : Event) (rest : List Event)
    (hnr : ev.notes ≠ ["R"])
    (h : ∃ nt ∈ ev.notes, nt ≠ "R" ∧ mapping nt = none) :
    playEvents mapping (ev :: rest) =
      Action.warn (resolveKeys mapping ev.notes).2 :: Action.sleep ev.dur
        :: playEvents mapping rest
    ∧ (∀ nt ∈ ev.notes, nt ≠ "R" → mapping nt = none →
        nt ∈ (resolveKeys mapping ev.notes).2)
    ∧ (∀ k, Action.keyDown k ∉ play_event mapping ev ∧ Action.keyUp k ∉ play_event mapping ev) := by
  obtain ⟨nt, hmem, hne, hnone⟩ := h
  have hmiss : (resolveKeys mapping ev.notes).2 ≠ [] :=
    List.ne_nil_of_mem (resolveKeys_missing_mem mapping ev.notes nt hmem hne hnone)
  have hev : play_event mapping ev =
      [Action.warn (resolveKeys mapping ev.notes).2, Action.sleep ev.dur] := by
    simp only [play_event, hnr, if_false]
    rw [if_pos hmiss]
  refine ⟨?_, ?_, ?_⟩
  · simp [playEvents, hev]
  · intro x hx hxr hxnone
    exact resolveKeys_missing_mem mapping ev.notes x hx hxr hxnone
  · intro k
    rw [hev]
    simp

/-- Witness for C5: a chord event E4+G4 with a mapping lacking G4. -/
theorem C5_missing_mapping_witness :
    playEvents (fun nt => if nt = "E4" then some "e" else none)
        [⟨["E4", "G4"], 1 / 4, 1 / 20, 1 / 100, 1⟩] =
      Action.warn (resolveKeys (fun nt => if nt = "E4" then some "e" else none)
          ["E4", "G4"]).2 :: Action.sleep (1 / 4)
        :: playEvents (fun nt => if nt = "E4" then some "e" else none) []
    ∧ (∀ nt ∈ (["E4", "G4"] : List String), nt ≠ "R" →
        (if nt = "E4" then some "e" else none) = none →
        nt ∈ (resolveKeys (fun nt => if nt = "E4" then some "e" else none) ["E4", "G4"]).2)
    ∧ (∀ k, Action.keyDown k ∉ play_event (fun nt => if nt = "E4" then some "e" else none)
          ⟨["E4", "G4"], 1 / 4, 1 / 20, 1 / 100, 1⟩
        ∧ Action.keyUp k ∉ play_event (fun nt => if nt = "E4" then some "e" else none)
          ⟨["E4", "G4"], 1 / 4, 1 / 20, 1 / 100, 1⟩) :=
  C5_missing_mapping (fun nt => if nt = "E4" then some "e" else none)
    ⟨["E4", "G4"], 1 / 4, 1 / 20, 1 / 100, 1⟩ [] (by decide)
    ⟨"G4", by decide, by decide, by decide⟩

/-- C10: repeat-count clamping.  For an event whose parsed repeat count is
zero or negative, the scheduler clamps it to 1 before dividing the duration
into slots (so the slot divisor is positive, never zero), the trace equals
that of the same event with repeat count 1, and a fully mapped non-rest
event is played exactly once over its full duration. -/
theorem C10_rep_clamp (mapping : String → Option String) (ev : Event) (hrep : ev.rep ≤ 0) :
    (0 : ℤ) < max 1 ev.rep
    ∧ play_event mapping ev = play_event mapping ⟨ev.notes, ev.dur, ev.hold, ev.stagger, 1⟩
    ∧ (ev.notes ≠ ["R"] → (resolveKeys mapping ev.notes).2 = [] →
        play_event mapping ev =
          chord_play (resolveKeys mapping ev.notes).1 (used_hold ev.hold ev.dur) ev.stagger
            ++ (if 0 < slot_rest ev.hold ev.dur
                then [Action.sleep (slot_rest ev.hold ev.dur)] else [])) := by
  have hmax : max 1 ev.rep = 1 := max_eq_left (by omega)
  refine ⟨by omega, ?_, ?_⟩
  · simp only [play_event, hmax, max_self]
  · intro hnr hmiss
    simp only [play_event, hmax, hnr, if_false, Int.cast_one, div_one]
    rw [if_neg (by simp [hmiss])]
    simp [List.range_succ]

/-- Witness for C10: a fully mapped single-note event with repeat count 0. -/
theorem C10_rep_clamp_witness :
    ((0 : ℤ) < max 1 (0 : ℤ)
    ∧ play_event (fun _ => some "q") ⟨["C4"], 1 / 2, 12 / 100, 1 / 125, 0⟩
        = play_event (fun _ => some "q") ⟨["C4"], 1 / 2, 12 / 100, 1 / 125, 1⟩
    ∧ ((["C4"] : List String) ≠ ["R"] →
        (resolveKeys (fun _ => some "q") ["C4"]).2 = [] →
        play_event (fun _ => some "q") ⟨["C4"], 1 / 2, 12 / 100, 1 / 125, 0⟩ =
          chord_play (resolveKeys (fun _ => some "q") ["C4"]).1
              (used_hold (12 / 100) (1 / 2)) (1 / 125)
            ++ (if 0 < slot_rest (12 / 100) (1 / 2)
                then [Action.sleep (slot_rest (12 / 100) (1 / 2))] else []))) :=
  C10_rep_clamp (fun _ => some "q") ⟨["C4"], 1 / 2, 12 / 100, 1 / 125, 0⟩ (by decide)

/-! ### Pitch names and octave folding (musicxml_to_song.py) -/

deriving instance DecidableEq for Except

/-- `SEMITONE_NAMES` from musicxml_to_song.py. -/
def SEMITONE_NAMES : List (List Char) :=
  [['C'], ['C', '#'], ['D'], ['D', '#'], ['E'], ['F'], ['F', '#'],
   ['G'], ['G', '#'], ['A'], ['A', '#'], ['B']]

/-- Model of `midi_to_note_name`: `SEMITONE_NAMES[midi % 12]` followed by
`str(midi // 12 - 1)` (Python floor division and nonnegative modulus). -/
def midi_to_note_name (midi : ℤ) : List Char :=
  SEMITONE_NAMES.getD (midi % 12).toNat [] ++ intToChars (Int.fdiv midi 12 - 1)

/-- The enharmonic flat table inside `note_name_to_midi`. -/
def enharmonicXml : List (List Char × List Char) :=
  [(['C', 'B'], ['B']), (['D', 'B'], ['C', '#']), (['E', 'B'], ['D', '#']),
   (['F', 'B'], ['E']), (['G', 'B'], ['F', '#']), (['A', 'B'], ['G', '#']),
   (['B', 'B'], ['A', '#'])]

/-- The semitone dictionary inside `note_name_to_midi`. -/
def semitoneIndex : List (List Char × ℕ) :=
  [(['C'], 0), (['C', '#'], 1), (['D'], 2), (['D', '#'], 3), (['E'], 4), (['F'], 5),
   (['F', '#'], 6), (['G'], 7), (['G', '#'], 8), (['A'], 9), (['A', '#'], 10), (['B'], 11)]

/-- Match of `NOTE_REGEX = ^([A-Ga-g])([#b]?)(\d+)$`: the letter, the
optional accidental, and the (nonempty) octave digits. -/
def noteRegexMatch (t : List Char) : Option (Char × List Char × List Char) :=
  match t with
  | [] => none
  | c :: cs =>
    if ('A' ≤ c ∧ c ≤ 'G') ∨ ('a' ≤ c ∧ c ≤ 'g') then
      let ar : List Char × List Char :=
        match cs with
        | a :: cs2 => if a = '#' ∨ a = 'b' then ([a], cs2) else ([], cs)
        | [] => ([], [])
      let digs := ar.2.takeWhile (fun ch => ch.isDigit)
      let rest := ar.2.dropWhile (fun ch => ch.isDigit)
      if digs ≠ [] ∧ rest = [] then some (c, ar.1, digs) else none
    else none

/-- Model of `note_name_to_midi`: parse the stripped name with NOTE_REGEX,
build `key = letter + accidental.upper()`, send a two-character key ending
in `B` through the enharmonic table (defaulting to the bare letter), look
up the semitone, and return `12*(octave+1) + semitone`; match or lookup
failure raises ValueError. -/
def note_name_to_midi (name : List Char) : Except String ℤ :=
  match noteRegexMatch (trim name) with
  | none => Except.error "ValueError"
  | some (letter, acc, digs) =>
    let letterU := letter.toUpper
    let key0 := letterU :: acc.map Char.toUpper
    let key :=
      if key0.getLast? = some 'B' ∧ key0.length = 2 then
        match (enharmonicXml.find? (fun p => p.1 == key0)).map (fun p => p.2) with
        | some s => s
        | none => [letterU]
      else key0
    match (semitoneIndex.find? (fun p => p.1 == key)).map (fun p => p.2) with
    | none => Except.error "ValueError"
    | some semitone =>
      match parseNat digs with
      | none => Except.error "ValueError"
      | some octave => Except.ok (12 * ((octave : ℤ) + 1) + (semitone : ℤ))

/-- C8 counterexample: pitch 0 renders as `C-1`, whose octave field `-1`
does not match the `\d+` octave group, so converting back fails instead of
returning 0; the claimed 0..127 invertibility fails below 12. -/
theorem C8_counterexample :
    midi_to_note_name 0 = ['C', '-', '1']
    ∧ note_name_to_midi (midi_to_note_name 0) = Except.error "ValueError" := by
  constructor
  · rfl
  · rfl

/-- C8 amended: the name/pitch conversion is exactly invertible on 12..127
(octaves 0 and above); in particular 60 maps to `C4` and back.  Below 12 the
rendered octave is negative and the parse direction rejects it. -/
theorem C8_pitch_roundtrip :
    (∀ m : ℕ, m < 128 → 12 ≤ m →
      note_name_to_midi (midi_to_note_name (m : ℤ)) = Except.ok (m : ℤ))
    ∧ midi_to_note_name 60 = ['C', '4']
    ∧ note_name_to_midi ['C', '4'] = Except.ok 60 := by
  refine ⟨by decide, by rfl, by rfl⟩

/-- Witness for C8 amended at pitch 60. -/
theorem C8_pitch_roundtrip_witness :
    note_name_to_midi (midi_to_note_name ((60 : ℕ) : ℤ)) = Except.ok ((60 : ℕ) : ℤ) :=
  C8_pitch_roundtrip.1 60 (by norm_num) (by norm_num)

/-- The `while adjusted < low` loop of `fold_into_range`: add 12 until at
least `low`; the flag records whether any iteration ran. -/
def foldUp (low : ℤ) (a : ℤ) : ℤ × Bool :=
  if a < low then ((foldUp low (a + 12)).1, true) else (a, false)
termination_by (low - a).toNat
decreasing_by simp_wf; omega

/-- The `while adjusted > high` loop of `fold_into_range`: subtract 12
until at most `high`. -/
def foldDown (high : ℤ) (a : ℤ) : ℤ × Bool :=
  if high < a then ((foldDown high (a - 12)).1, true) else (a, false)
termination_by (a - high).toNat
decreasing_by simp_wf; omega

/-- Model of `fold_into_range`: no bounds returns the pitch unchanged;
inverted bounds raise; otherwise fold up then down by octaves and raise
when the folded result leaves 0..127. -/
def fold_into_range (midi : ℤ) (bounds : Option (ℤ × ℤ)) : Except String (ℤ × Bool) :=
  match bounds with
  | none => Except.ok (midi, false)
  | some (low, high) =>
    if low > high then Except.error "Invalid mapping range"
    else
      let u := foldUp low midi
      let dn := foldDown high u.1
      if ¬ (0 ≤ dn.1 ∧ dn.1 ≤ 127) then Except.error "Folded note out of MIDI range"
      else Except.ok (dn.1, u.2 || dn.2)

lemma foldUp_spec (low : ℤ) : ∀ (fuel : ℕ) (a : ℤ), (low - a).toNat ≤ fuel →
    low ≤ (foldUp low a).1 ∨ ((foldUp low a).1 = a ∧ ¬ a < low) := by
  intro fuel
  induction fuel with
  | zero =>
    intro a ha
    have hnot : ¬ a < low := by omega
    rw [foldUp, if_neg hnot]
    exact Or.inr ⟨rfl, hnot⟩
  | succ fuel ih =>
    intro a ha
    by_cases hlt : a < low
    · rw [foldUp, if_pos hlt]
      rcases ih (a + 12) (by omega) with h | h
      · exact Or.inl h
      · left
        show low ≤ (foldUp low (a + 12)).1
        rw [h.1]
        omega
    · rw [foldUp, if_neg hlt]
      exact Or.inr ⟨rfl, hlt⟩

lemma foldUp_ge (low a : ℤ) : low ≤ (foldUp low a).1 := by
  rcases foldUp_spec low (low - a).toNat a le_rfl with h | h
  · exact h
  · rw [h.1]
    omega

lemma foldUp_mod (low : ℤ) : ∀ (fuel : ℕ) (a : ℤ), (low - a).toNat ≤ fuel →
    (foldUp low a).1 % 12 = a % 12 := by
  intro fuel
  induction fuel with
  | zero =>
    intro a ha
    have hnot : ¬ a < low := by omega
    rw [foldUp, if_neg hnot]
  | succ fuel ih =>
    intro a ha
    by_cases hlt : a < low
    · rw [foldUp, if_pos hlt]
      show (foldUp low (a + 12)).1 % 12 = a % 12
      rw [ih (a + 12) (by omega)]
      omega
    · rw [foldUp, if_neg hlt]

lemma foldDown_spec (high : ℤ) : ∀ (fuel : ℕ) (a : ℤ), (a - high).toNat ≤ fuel →
    ((foldDown high a).1 ≤ high ∨ ((foldDown high a).1 = a ∧ ¬ high < a))
    ∧ (high < a → high - 12 < (foldDown high a).1)
    ∧ (foldDown high a).1 % 12 = a % 12 := by
  intro fuel
  induction fuel with
  | zero =>
    intro a ha
    have hnot : ¬ high < a := by omega
    rw [foldDown, if_neg hnot]
    exact ⟨Or.inr ⟨rfl, hnot⟩, by omega, rfl⟩
  | succ fuel ih =>
    intro a ha
    by_cases hlt : high < a
    · rw [foldDown, if_pos hlt]
      obtain ⟨ih1, ih2, ih3⟩ := ih (a - 12) (by omega)
      refine ⟨?_, ?_, ?_⟩
      · rcases ih1 with h | h
        · exact Or.inl h
        · left
          show (foldDown high (a - 12)).1 ≤ high
          rw [h.1]
          have := h.2
          omega
      · intro _
        show high - 12 < (foldDown high (a - 12)).1
        by_cases h2 : high < a - 12
        · have := ih2 h2
          omega
        · rcases ih1 with h | h
          · have hh : (foldDown high (a - 12)).1 = a - 12 := by
              rw [foldDown, if_neg h2]
            omega
          · rw [h.1]
            omega
      · show (foldDown high (a - 12)).1 % 12 = a % 12
        rw [ih3]
        omega
    · rw [foldDown, if_neg hlt]
      exact ⟨Or.inr ⟨rfl, hlt⟩, by omega, rfl⟩

lemma foldDown_le (high a : ℤ) : (foldDown high a).1 ≤ high ∨
    ((foldDown high a).1 = a ∧ ¬ high < a) :=
  ((foldDown_spec high (a - high).toNat a le_rfl).1)

/-- C9 counterexample: with the valid but narrow bounds [60, 65], folding
pitch 70 returns 58 with no error, and 58 is below the lower bound — the
returned pitch does not lie within [low, high]. -/
theorem C9_counterexample :
    (60 : ℤ) ≤ 65
    ∧ fold_into_range 70 (some (60, 65)) = Except.ok (58, true)
    ∧ ¬ ((60 : ℤ) ≤ 58) := by
  refine ⟨by norm_num, ?_, by norm_num⟩
  simp +decide [fold_into_range, foldUp, foldDown]

/-- C9 amended: with inverted bounds `fold_into_range` fails with the range
error; with valid bounds any successful result keeps the pitch class
(difference a multiple of 12), lies within 0..127 (else the call fails), is
never above `high`, and is at least `low` provided the window spans a full
octave (`low + 11 ≤ high`); a narrower window may undershoot `low`. -/
theorem C9_fold_into_range (midi low high : ℤ) :
    (low > high → fold_into_range midi (some (low, high)) = Except.error "Invalid mapping range")
    ∧ (low ≤ high → ∀ (a : ℤ) (c : Bool),
        fold_into_range midi (some (low, high)) = Except.ok (a, c) →
        (0 ≤ a ∧ a ≤ 127) ∧ a % 12 = midi % 12 ∧ a ≤ high ∧ (low + 11 ≤ high → low ≤ a)) := by
  constructor
  · intro hgt
    simp only [fold_into_range, hgt, if_true]
  · intro hle a c hok
    have hngt : ¬ low > high := not_lt.mpr hle
    simp only [fold_into_range, hngt, if_false] at hok
    by_cases hrange : 0 ≤ (foldDown high (foldUp low midi).1).1
        ∧ (foldDown high (foldUp low midi).1).1 ≤ 127
    · rw [if_neg (by simpa using hrange)] at hok
      have ha : a = (foldDown high (foldUp low midi).1).1 := by
        have := congrArg (fun e => match e with
          | Except.ok (p : ℤ × Bool) => p.1
          | Except.error _ => 0) hok
        simpa using this.symm
      obtain ⟨hd1, hd2, hd3⟩ :=
        foldDown_spec high ((foldUp low midi).1 - high).toNat (foldUp low midi).1 le_rfl
      have hu_ge : low ≤ (foldUp low midi).1 := foldUp_ge low midi
      have hu_mod : (foldUp low midi).1 % 12 = midi % 12 :=
        foldUp_mod low (low - midi).toNat midi le_rfl
      refine ⟨ha ▸ hrange, ?_, ?_, ?_⟩
      · rw [ha, hd3, hu_mod]
      · rw [ha]
        rcases hd1 with h | h
        · exact h
        · rw [h.1]
          exact le_of_not_lt h.2
      · intro hwide
        rw [ha]
        by_cases hgt2 : high < (foldUp low midi).1
        · have := hd2 hgt2
          omega
        · rcases hd1 with h | h
          · have heq : (foldDown high (foldUp low midi).1).1 = (foldUp low midi).1 := by
              rw [foldDown, if_neg hgt2]
            omega
          · rw [h.1]
            exact hu_ge
    · rw [if_pos (by simpa using hrange)] at hok
      exact absurd hok (by simp)

/-- Witness for C9 amended: pitch 70 with bounds [60, 72] folds to itself. -/
theorem C9_fold_into_range_witness :
    ((0 : ℤ) ≤ 70 ∧ (70 : ℤ) ≤ 127) ∧ (70 : ℤ) % 12 = (70 : ℤ) % 12
      ∧ (70 : ℤ) ≤ 72 ∧ ((60 : ℤ) + 11 ≤ 72 → (60 : ℤ) ≤ 70) :=
  (C9_fold_into_range 70 60 72).2 (by norm_num) 70 false
    (by simp +decide [fold_into_range, foldUp, foldDown])

/-! ### Song text parser (ocarina_player.py) -/

/-- The lane field of the header state; Python stores exactly the strings
`LOW` or `HIGH` here. -/
inductive Lane where
  | LOW : Lane
  | HIGH : Lane
deriving DecidableEq, Repr

/-- The header state dict of `parse_song`:
`{bpm, q, unit, lane, hold, stagger, rep}`. -/
structure HState where
  bpm : ℤ
  q : ℚ
  unit : ℤ
  lane : Lane
  hold : ℚ
  stagger : ℚ
  rep : ℤ
deriving DecidableEq, Repr

/-- The initial header state of `parse_song`. -/
def initState : HState := ⟨120, 1 / 2, 8, Lane.LOW, 12 / 100, 8 / 1000, 1⟩

/-- `lane_oct` from `parse_song`: LOW is octave 4, HIGH is octave 5. -/
def lane_oct : Lane → ℕ
  | Lane.LOW => 4
  | Lane.HIGH => 5

/-- Model of `up.split("=", 1)[1]`: everything after the first `=`; callers
reach this only when an `=` is present. -/
def afterFirstEq : List Char → List Char
  | [] => []
  | c :: cs => if c = '=' then cs else afterFirstEq cs

/-- Model of `parse_header`: uppercase the stripped line; a recognized
`KEY=` prefix parses its value and updates the state (`some`), any other
line is not a header (`none`); int/float parse failures and a zero BPM
abort (Python ValueError / ZeroDivisionError on `60.0/bpm`). -/
def parse_header (line : List Char) (st : HState) : Except String (Option HState) :=
  let up := (trim line).map Char.toUpper
  if List.isPrefixOf ['B', 'P', 'M', '='] up ∨ List.isPrefixOf ['T', 'E', 'M', 'P', 'O', '='] up
  then
    match parseInt (afterFirstEq up) with
    | none => Except.error "ValueError"
    | some b =>
      if b = 0 then Except.error "ZeroDivisionError"
      else Except.ok (some ⟨b, 60 / (b : ℚ), st.unit, st.lane, st.hold, st.stagger, st.rep⟩)
  else if List.isPrefixOf ['U', 'N', 'I', 'T', '='] up then
    match parseInt (afterFirstEq up) with
    | none => Except.error "ValueError"
    | some u => Except.ok (some ⟨st.bpm, st.q, u, st.lane, st.hold, st.stagger, st.rep⟩)
  else if List.isPrefixOf ['H', 'O', 'L', 'D', '='] up then
    match parseFloat (afterFirstEq up) with
    | none => Except.error "ValueError"
    | some v => Except.ok (some ⟨st.bpm, st.q, st.unit, st.lane, v, st.stagger, st.rep⟩)
  else if List.isPrefixOf ['S', 'T', 'A', 'G', 'G', 'E', 'R', '='] up then
    match parseFloat (afterFirstEq up) with
    | none => Except.error "ValueError"
    | some v => Except.ok (some ⟨st.bpm, st.q, st.unit, st.lane, st.hold, v, st.rep⟩)
  else if List.isPrefixOf ['R', 'E', 'P', '='] up then
    match parseInt (afterFirstEq up) with
    | none => Except.error "ValueError"
    | some v => Except.ok (some ⟨st.bpm, st.q, st.unit, st.lane, st.hold, st.stagger, v⟩)
  else Except.ok none

/-- The leading header loop of `parse_song`:
`while idx < len(lines) and parse_header(lines[idx], state): idx += 1`. -/
def headerPhase (st : HState) : List (List Char) → Except String (HState × List (List Char))
  | [] => Except.ok (st, [])
  | l :: ls =>
    match parse_header l st with
    | Except.error e => Except.error e
    | Except.ok none => Except.ok (st, l :: ls)
    | Except.ok (some st2) => headerPhase st2 ls

/-- The attribute dict built by `parse_attrs`. -/
structure Attrs where
  hold : Option ℚ
  stagger : Option ℚ
  rep : Option ℤ
deriving DecidableEq, Repr

/-- The chunk loop of `parse_attrs`: comma-separated chunks are stripped;
empty chunks are skipped; an `h` / `st` / `rep` prefix parses the value
after it (later chunks overwrite); unrecognized chunks are silently
ignored; float/int failures abort. -/
def parse_attrs_go (a : Attrs) : List (List Char) → Except String Attrs
  | [] => Except.ok a
  | chunk :: rest =>
    let c := trim chunk
    if c = [] then parse_attrs_go a rest
    else if c.head? = some 'h' then
      match parseFloat (c.drop 1) with
      | none => Except.error "ValueError"
      | some v => parse_attrs_go ⟨some v, a.stagger, a.rep⟩ rest
    else if List.isPrefixOf ['s', 't'] c then
      match parseFloat (c.drop 2) with
      | none => Except.error "ValueError"
      | some v => parse_attrs_go ⟨a.hold, some v, a.rep⟩ rest
    else if List.isPrefixOf ['r', 'e', 'p'] c then
      match parseInt (c.drop 3) with
      | none => Except.error "ValueError"
      | some v => parse_attrs_go ⟨a.hold, a.stagger, some v⟩ rest
    else parse_attrs_go a rest

/-- Model of `parse_attrs` over the text inside the parentheses. -/
def parse_attrs (body : List Char) : Except String Attrs :=
  parse_attrs_go ⟨none, none, none⟩ (splitOnChar ',' body)

/-- `ENHARMONIC` from ocarina_player.py. -/
def ENHARMONIC : List (List Char × List Char) :=
  [(['D', 'B'], ['C', '#']), (['E', 'B'], ['D', '#']), (['G', 'B'], ['F', '#']),
   (['A', 'B'], ['G', '#']), (['B', 'B'], ['A', '#']), (['E', '#'], ['F']),
   (['B', '#'], ['C'])]

/-- Match of the norm_note regex `^([A-Ga-g])([#b]?)(\d*)$` (octave digits
may be absent, unlike NOTE_REGEX of the converter). -/
def playerNoteMatch (t : List Char) : Option (Char × List Char × List Char) :=
  match t with
  | [] => none
  | c :: cs =>
    if ('A' ≤ c ∧ c ≤ 'G') ∨ ('a' ≤ c ∧ c ≤ 'g') then
      let ar : List Char × List Char :=
        match cs with
        | a :: cs2 => if a = '#' ∨ a = 'b' then ([a], cs2) else ([], cs)
        | [] => ([], [])
      let digs := ar.2.takeWhile (fun ch => ch.isDigit)
      let rest := ar.2.dropWhile (fun ch => ch.isDigit)
      if rest = [] then some (c, ar.1, digs) else none
    else none

/-- Model of `norm_note`: strip; bare `R` (case-insensitive) is the rest
sentinel; otherwise match the note regex, uppercase the letter, send a flat
through ENHARMONIC (`name = s[0]`, accidental becomes `#`; the accidental is
dropped when the key is absent), default a missing octave to the lane
octave, and render `f"{name}{acc}{octave}"`. -/
def norm_note (raw : List Char) (default_oct : ℕ) : Except String (List Char) :=
  let t := trim raw
  if t.map Char.toUpper = ['R'] then Except.ok ['R']
  else
    match playerNoteMatch t with
    | none => Except.error "Bad note"
    | some (letter, acc, digs) =>
      let name := letter.toUpper
      let na : Char × List Char :=
        if acc = ['b'] then
          match (ENHARMONIC.find? (fun p => p.1 == [name, 'B'])).map (fun p => p.2) with
          | some s => (s.headD name, ['#'])
          | none => (name, [])
        else (name, acc)
      match (if digs = [] then some default_oct else parseNat digs) with
      | none => Except.error "ValueError"
      | some octave => Except.ok (na.1 :: na.2 ++ natToChars octave)

/-- One chord atom of `tok_re`: `[A-Ga-gR](?:[#b]?\d*)?`. -/
def takeAtom (l : List Char) : Option (List Char × List Char) :=
  match l with
  | [] => none
  | c :: cs =>
    if ('A' ≤ c ∧ c ≤ 'G') ∨ ('a' ≤ c ∧ c ≤ 'g') ∨ c = 'R' then
      let ar : List Char × List Char :=
        match cs with
        | a :: cs2 => if a = '#' ∨ a = 'b' then ([a], cs2) else ([], cs)
        | [] => ([], [])
      let digs := ar.2.takeWhile (fun ch => ch.isDigit)
      let rest := ar.2.dropWhile (fun ch => ch.isDigit)
      some (c :: ar.1 ++ digs, rest)
    else none

/-- The `(?:\+atom)*` continuation of the notes group; fuel at least the
remaining length is enough since each step consumes at least two
characters. -/
def takeChordAux : ℕ → List Char → List Char → Option (List Char × List Char)
  | fuel + 1, acc, rest =>
    if rest.head? = some '+' then
      match takeAtom (rest.drop 1) with
      | none => none
      | some ar => takeChordAux fuel (acc ++ '+' :: ar.1) ar.2
    else some (acc, rest)
  | 0, acc, rest => some (acc, rest)

/-- Match of `tok_re`: the notes group, the optional `:dur` group (a
nonempty run of digits and `+` after a colon), the dot run, and the body of
the optional parenthesized attr group; anchored at both ends. -/
def tok_match (tok : List Char) : Option (List Char × List Char × ℕ × List Char) :=
  match takeAtom tok with
  | none => none
  | some ar =>
    match takeChordAux tok.length ar.1 ar.2 with
    | none => none
    | some nr =>
      match
        (if nr.2.head? = some ':' then
           (if (nr.2.drop 1).takeWhile (fun ch : Char => ch.isDigit || ch == '+') = []
            then none
            else some ((nr.2.drop 1).takeWhile (fun ch : Char => ch.isDigit || ch == '+'),
              (nr.2.drop 1).dropWhile (fun ch : Char => ch.isDigit || ch == '+')))
         else some (([] : List Char), nr.2)) with
      | none => none
      | some dr =>
        if dr.2.dropWhile (fun ch => ch == '.') = [] then
          some (nr.1, dr.1, (dr.2.takeWhile (fun ch => ch == '.')).length, [])
        else if (dr.2.dropWhile (fun ch => ch == '.')).head? = some '(' then
          (if ((dr.2.dropWhile (fun ch => ch == '.')).drop 1).dropWhile
              (fun ch => !(ch == ')')) = [')'] then
            some (nr.1, dr.1, (dr.2.takeWhile (fun ch => ch == '.')).length,
              ((dr.2.dropWhile (fun ch => ch == '.')).drop 1).takeWhile
                (fun ch => !(ch == ')')))
          else none)
        else none

/-- The chord list comprehension of `parse_song`:
`[norm_note(n, default_oct) for n in notespec.split('+')]`, first failure
aborting. -/
def normNotes (oct : ℕ) : List (List Char) → Except String (List (List Char))
  | [] => Except.ok []
  | n :: ns =>
    match norm_note n oct with
    | Except.error e => Except.error e
    | Except.ok nn =>
      match normNotes oct ns with
      | Except.error e => Except.error e
      | Except.ok rest => Except.ok (nn :: rest)

/-- Model of the body-token dispatch of `parse_song`: lane switches by
uppercase prefix, inline header assignments (fed the uppercased token),
otherwise the token regex builds one event merging the attributes over the
header defaults in effect. -/
def processToken (st : HState) (evs : List Event) (raw : List Char) :
    Except String (HState × List Event) :=
  let up := raw.map Char.toUpper
  if List.isPrefixOf ['L', 'O', 'W'] up then
    Except.ok (⟨st.bpm, st.q, st.unit, Lane.LOW, st.hold, st.stagger, st.rep⟩, evs)
  else if List.isPrefixOf ['H', 'I', 'G', 'H'] up then
    Except.ok (⟨st.bpm, st.q, st.unit, Lane.HIGH, st.hold, st.stagger, st.rep⟩, evs)
  else if List.isPrefixOf ['B', 'P', 'M', '='] up
      ∨ List.isPrefixOf ['T', 'E', 'M', 'P', 'O', '='] up
      ∨ List.isPrefixOf ['U', 'N', 'I', 'T', '='] up
      ∨ List.isPrefixOf ['H', 'O', 'L', 'D', '='] up
      ∨ List.isPrefixOf ['S', 'T', 'A', 'G', 'G', 'E', 'R', '='] up
      ∨ List.isPrefixOf ['R', 'E', 'P', '='] up then
    match parse_header up st with
    | Except.error e => Except.error e
    | Except.ok none => Except.ok (st, evs)
    | Except.ok (some st2) => Except.ok (st2, evs)
  else
    match tok_match raw with
    | none => Except.error "Bad token"
    | some m =>
      match parse_attrs m.2.2.2 with
      | Except.error e => Except.error e
      | Except.ok attr =>
        match parse_duration m.2.1 st.unit st.q m.2.2.1 with
        | Except.error e => Except.error e
        | Except.ok dur =>
          match normNotes (lane_oct st.lane) (splitOnChar '+' m.1) with
          | Except.error e => Except.error e
          | Except.ok normed =>
            Except.ok (st, evs ++ [⟨normed.map (fun cl => String.mk cl), dur,
              attr.hold.getD st.hold, attr.stagger.getD st.stagger, attr.rep.getD st.rep⟩])

/-- The per-line token loop of the body phase. -/
def processTokens (st : HState) (evs : List Event) : List (List Char) →
    Except String (HState × List Event)
  | [] => Except.ok (st, evs)
  | t :: ts =>
    match processToken st evs t with
    | Except.error e => Except.error e
    | Except.ok se => processTokens se.1 se.2 ts

/-- One body line split into tokens:
`line.replace("|", " ").replace(",", " ").split()`. -/
def tokenize (l : List Char) : List (List Char) :=
  splitWs (l.map (fun c => if c = '|' ∨ c = ',' then ' ' else c))

/-- The body loop of `parse_song`: full header lines are applied in place,
any other line is tokenized and processed token by token. -/
def bodyPhase (st : HState) (evs : List Event) : List (List Char) →
    Except String (List Event × HState)
  | [] => Except.ok (evs, st)
  | l :: ls =>
    match parse_header l st with
    | Except.error e => Except.error e
    | Except.ok (some st2) => bodyPhase st2 evs ls
    | Except.ok none =>
      match processTokens st evs (tokenize l) with
      | Except.error e => Except.error e
      | Except.ok se => bodyPhase se.1 se.2 ls

/-- Model of `parse_song` over the raw file lines: strip each line, drop
blanks and `#` comments, fail on an empty song, then run the header phase
and the body phase from the initial state. -/
def parse_song (raw : List (List Char)) : Except String (List Event × HState) :=
  let lines := (raw.map trim).filter (fun l => !l.isEmpty && !(l.head? == some '#'))
  if lines = [] then Except.error "Empty song"
  else
    match headerPhase initState lines with
    | Except.error e => Except.error e
    | Except.ok sr => bodyPhase sr.1 [] sr.2

/-- The exact end-to-end input text of the claim,
`BPM=120\nC4:4\nR:8\nE4+G4:8(h0.05,st0.01)`, as its character stream. -/
def c7Input : List Char := ['B', 'P', 'M', '=', '1', '2', '0', '\n', 'C', '4', ':', '4', '\n', 'R', ':', '8', '\n', 'E', '4', '+', 'G', '4', ':', '8', '(', 'h', '0', '.', '0', '5', ',', 's', 't', '0', '.', '0', '1', ')']

set_option maxRecDepth 8000 in
/-- C7: end-to-end parse.  On the exact claimed input, `parse_song` raises
`Bad token` — the tokenizer turns the comma inside `(h0.05,st0.01)` into a
token separator, splitting the chord token in two — even though every stage
supports the claimed result: the header line yields quarterSeconds 1/2, the
lines `C4:4` and `R:8` parse to the claimed first two events, `parse_attrs`
itself accepts the documented comma syntax `h0.05,st0.01`, and the chord
token processed intact yields the claimed third event. -/
theorem C7_end_to_end :
    parse_song (splitOnChar '\n' c7Input) = Except.error "Bad token"
    ∧ parse_header ['B', 'P', 'M', '=', '1', '2', '0'] initState = Except.ok (some ⟨120, 1 / 2, 8, Lane.LOW, 12 / 100, 8 / 1000, 1⟩)
    ∧ bodyPhase ⟨120, 1 / 2, 8, Lane.LOW, 12 / 100, 8 / 1000, 1⟩ [] [['C', '4', ':', '4'], ['R', ':', '8']]
        = Except.ok ([⟨["C4"], 1 / 2, 12 / 100, 1 / 125, 1⟩, ⟨["R"], 1 / 4, 12 / 100, 1 / 125, 1⟩], ⟨120, 1 / 2, 8, Lane.LOW, 12 / 100, 8 / 1000, 1⟩)
    ∧ parse_attrs ['h', '0', '.', '0', '5', ',', 's', 't', '0', '.', '0', '1'] = Except.ok ⟨some (1 / 20), some (1 / 100), none⟩
    ∧ processToken ⟨120, 1 / 2, 8, Lane.LOW, 12 / 100, 8 / 1000, 1⟩ [] ['E', '4', '+', 'G', '4', ':', '8', '(', 'h', '0', '.', '0', '5', ',', 's', 't', '0', '.', '0', '1', ')']
        = Except.ok (⟨120, 1 / 2, 8, Lane.LOW, 12 / 100, 8 / 1000, 1⟩, [⟨["E4", "G4"], 1 / 4, 1 / 20, 1 / 100, 1⟩]) := by
  have hf05 : parseFloat ['0', '.', '0', '5'] = some (1 / 20) := by
    simp +decide only [if_true, if_false, parseFloat, parseFloatAbs, splitOnChar, splitOnP,
      parseNat, parseNatAux, charDigit, List.drop, Option.map]
    norm_num
  have hf01 : parseFloat ['0', '.', '0', '1'] = some (1 / 100) := by
    simp +decide only [if_true, if_false, parseFloat, parseFloatAbs, splitOnChar, splitOnP,
      parseNat, parseNatAux, charDigit, List.drop, Option.map]
    norm_num
  have hattr2 : parse_attrs ['h', '0', '.', '0', '5', ',', 's', 't', '0', '.', '0', '1'] = Except.ok ⟨some (1 / 20), some (1 / 100), none⟩ := by
    have hsp : splitOnChar ',' ['h', '0', '.', '0', '5', ',', 's', 't', '0', '.', '0', '1'] = [['h', '0', '.', '0', '5'], ['s', 't', '0', '.', '0', '1']] := by decide
    have htr1 : trim ['h', '0', '.', '0', '5'] = ['h', '0', '.', '0', '5'] := by decide
    have htr2 : trim ['s', 't', '0', '.', '0', '1'] = ['s', 't', '0', '.', '0', '1'] := by decide
    simp +decide only [if_true, if_false, parse_attrs, hsp, parse_attrs_go, htr1, htr2,
      List.drop, List.isPrefixOf, hf05, hf01]
  have hdur4 : parse_duration ['4'] 8 (1 / 2) 0 = Except.ok (1 / 2) := by
    simp +decide only [if_true, if_false, parse_duration, splitOnChar, splitOnP,
      sumTermsStr, parseNat, parseNatAux, charDigit, Except.map]
    norm_num
  have hdur8 : parse_duration ['8'] 8 (1 / 2) 0 = Except.ok (1 / 4) := by
    simp +decide only [if_true, if_false, parse_duration, splitOnChar, splitOnP,
      sumTermsStr, parseNat, parseNatAux, charDigit, Except.map]
    norm_num
  have hptC : processToken ⟨120, 1 / 2, 8, Lane.LOW, 12 / 100, 8 / 1000, 1⟩ [] ['C', '4', ':', '4'] = Except.ok (⟨120, 1 / 2, 8, Lane.LOW, 12 / 100, 8 / 1000, 1⟩, [⟨["C4"], 1 / 2, 12 / 100, 1 / 125, 1⟩]) := by
    have htok : tok_match ['C', '4', ':', '4'] = some (['C', '4'], ['4'], 0, []) := by decide
    have hattr : parse_attrs [] = Except.ok ⟨none, none, none⟩ := by decide
    have hnorm : norm_note ['C', '4'] 4 = Except.ok ['C', '4'] := by decide
    have hpre1 : List.isPrefixOf ['L', 'O', 'W'] (['C', '4', ':', '4'].map Char.toUpper) = false := by decide
    have hpre2 : List.isPrefixOf ['H', 'I', 'G', 'H'] (['C', '4', ':', '4'].map Char.toUpper) = false := by
      decide
    simp +decide only [if_true, if_false, processToken, htok, hattr, hnorm, hdur4,
      lane_oct, Option.getD, hpre1, hpre2, List.map, normNotes, splitOnChar, splitOnP]
    norm_num
  have hptR : processToken ⟨120, 1 / 2, 8, Lane.LOW, 12 / 100, 8 / 1000, 1⟩ [⟨["C4"], 1 / 2, 12 / 100, 1 / 125, 1⟩] ['R', ':', '8'] = Except.ok (⟨120, 1 / 2, 8, Lane.LOW, 12 / 100, 8 / 1000, 1⟩, [⟨["C4"], 1 / 2, 12 / 100, 1 / 125, 1⟩, ⟨["R"], 1 / 4, 12 / 100, 1 / 125, 1⟩]) := by
    have htok : tok_match ['R', ':', '8'] = some (['R'], ['8'], 0, []) := by decide
    have hattr : parse_attrs [] = Except.ok ⟨none, none, none⟩ := by decide
    have hnorm : norm_note ['R'] 4 = Except.ok ['R'] := by decide
    have hpre1 : List.isPrefixOf ['L', 'O', 'W'] (['R', ':', '8'].map Char.toUpper) = false := by decide
    have hpre2 : List.isPrefixOf ['H', 'I', 'G', 'H'] (['R', ':', '8'].map Char.toUpper) = false := by
      decide
    simp +decide only [if_true, if_false, processToken, htok, hattr, hnorm, hdur8,
      lane_oct, Option.getD, hpre1, hpre2, List.map, normNotes, splitOnChar, splitOnP]
    norm_num
  have hptE : processToken ⟨120, 1 / 2, 8, Lane.LOW, 12 / 100, 8 / 1000, 1⟩ [] ['E', '4', '+', 'G', '4', ':', '8', '(', 'h', '0', '.', '0', '5', ',', 's', 't', '0', '.', '0', '1', ')'] = Except.ok (⟨120, 1 / 2, 8, Lane.LOW, 12 / 100, 8 / 1000, 1⟩, [⟨["E4", "G4"], 1 / 4, 1 / 20, 1 / 100, 1⟩]) := by
    have htok : tok_match ['E', '4', '+', 'G', '4', ':', '8', '(', 'h', '0', '.', '0', '5', ',', 's', 't', '0', '.', '0', '1', ')']
        = some (['E', '4', '+', 'G', '4'], ['8'], 0, ['h', '0', '.', '0', '5', ',', 's', 't', '0', '.', '0', '1']) := by decide
    have hnormE : norm_note ['E', '4'] 4 = Except.ok ['E', '4'] := by decide
    have hnormG : norm_note ['G', '4'] 4 = Except.ok ['G', '4'] := by decide
    have hpre1 : List.isPrefixOf ['L', 'O', 'W'] (['E', '4', '+', 'G', '4', ':', '8', '(', 'h', '0', '.', '0', '5', ',', 's', 't', '0', '.', '0', '1', ')'].map Char.toUpper) = false := by decide
    have hpre2 : List.isPrefixOf ['H', 'I', 'G', 'H'] (['E', '4', '+', 'G', '4', ':', '8', '(', 'h', '0', '.', '0', '5', ',', 's', 't', '0', '.', '0', '1', ')'].map Char.toUpper) = false := by
      decide
    simp +decide only [if_true, if_false, processToken, htok, hattr2, hnormE, hnormG,
      hdur8, lane_oct, Option.getD, hpre1, hpre2, List.map, normNotes, splitOnChar,
      splitOnP]
    norm_num
  refine ⟨?_, ?_, ?_, hattr2, hptE⟩
  · have hsplit : splitOnChar '\n' c7Input = [['B', 'P', 'M', '=', '1', '2', '0'], ['C', '4', ':', '4'], ['R', ':', '8'], ['E', '4', '+', 'G', '4', ':', '8', '(', 'h', '0', '.', '0', '5', ',', 's', 't', '0', '.', '0', '1', ')']] := by decide
    rw [hsplit]
    simp +decide only [if_true, if_false, parse_song, headerPhase, bodyPhase,
      processTokens, processToken, parse_header, tok_match, takeAtom, takeChordAux,
      parse_attrs, parse_attrs_go, parse_duration, sumTermsStr, splitOnChar, splitOnP,
      splitWs, tokenize, norm_note, playerNoteMatch, ENHARMONIC, lane_oct, initState,
      trim, ltrim, afterFirstEq, parseNat, parseNatAux, parseInt, parseFloat,
      parseFloatAbs, charDigit, natToChars, natToCharsAux, normNotes, List.isPrefixOf,
      Except.map, List.find?, List.filter, List.dropWhile, List.takeWhile, List.map,
      Option.getD, Option.map, Char.isWhitespace, Char.isDigit, List.reverse, List.drop]
  · simp +decide only [if_true, if_false, parse_header, initState, trim, ltrim,
      afterFirstEq, parseInt, parseNat, parseNatAux, charDigit, List.isPrefixOf,
      List.map, List.drop, List.dropWhile, List.reverse, Char.isWhitespace, Option.map]
    norm_num
  · have h1 : parse_header ['C', '4', ':', '4'] ⟨120, 1 / 2, 8, Lane.LOW, 12 / 100, 8 / 1000, 1⟩ = Except.ok none := by decide
    have h2 : parse_header ['R', ':', '8'] ⟨120, 1 / 2, 8, Lane.LOW, 12 / 100, 8 / 1000, 1⟩ = Except.ok none := by decide
    have ht1 : tokenize ['C', '4', ':', '4'] = [['C', '4', ':', '4']] := by decide
    have ht2 : tokenize ['R', ':', '8'] = [['R', ':', '8']] := by decide
    simp +decide only [if_true, if_false, bodyPhase, h1, h2, ht1, ht2, processTokens,
      hptC, hptR]


end Ocarina
